import Mathlib

/-!
# Verification development for `docker.go`

A shallow embedding of the topology builder (`ImageNode.add`, `ImagesHandler`,
`imageList`, `ContainerGraphHandler`) and of the event pipeline (`EchoEvents`).

Go pointers to `ImageNode` are modelled by the position of the node in the
`nodes` slice; the `Children` slices, which the recursion mutates through those
pointers, live in an explicit heap that is threaded through the calls.
Recursion depth is bounded by a fuel argument: running out of fuel stands for
an unbounded recursion (a stack overflow in Go).
-/

namespace Avast

/-! ## Data model -/

/-- Record `types.Image` of the engine client, with the fields the handlers read. -/
structure Image where
  ID : String
  ParentID : String
  RepoTags : List String
  RepoDigests : List String
  Created : Int
  Size : Int
  VirtualSize : Int
  Labels : List (String × String)
  deriving DecidableEq, Repr

/-- Struct `ImageNode` without its `Children` field, which is kept in the `Heap`. -/
structure ImageNode where
  ID : String
  ParentID : String
  RepoTags : List String
  RepoDigests : List String
  Created : String
  Size : String
  VirtualSize : String
  Labels : List (String × String)
  deriving DecidableEq, Repr

/-- Struct `GraphNode`; its field `Type` is named `Type_` here. -/
structure GraphNode where
  ID : String
  Type_ : String
  Names : List String
  Images : List String
  deriving DecidableEq, Repr

/-- The two functions of the `go-humanize` library that `ImagesHandler` calls. -/
structure Humanize where
  Time : Int → String
  Bytes : Nat → String

/-- A pointer to an `ImageNode`: `none` is the fresh root of `ImagesHandler`,
`some i` is `nodes[i]`. -/
abbrev Ptr := Option Nat

/-- The `Children` slice of every node, as a list of pointers. -/
abbrev Heap := Ptr → List Nat

/-- Every `Children` slice is nil. -/
def Heap.empty : Heap := fun _ => []

/-- Statement `node.Children = append(node.Children, n)` with `n = nodes[i]`. -/
def Heap.append (h : Heap) (node : Ptr) (i : Nat) : Heap :=
  fun q => if q = node then h q ++ [i] else h q

/-! ## Image lineage tree -/

/-- Method `ImageNode.add`: receiver `node`, argument `parent`, slice `nodes`.
The result is `none` when the recursion is deeper than `fuel`. -/
def add (nodes : List ImageNode) : Nat → Ptr → String → Heap → Option Heap
  | 0, _, _, _ => none
  | fuel + 1, node, parent, h =>
    nodes.enum.foldlM
      (fun h p =>
        if p.2.ParentID = parent then
          add nodes fuel (some p.1) p.2.ID (h.append node p.1)
        else some h)
      h

/-- Conversion `uint64(x)` of an `int64`. -/
def toUint64 (x : Int) : Nat := (x % (2 : Int) ^ 64).toNat

/-- One iteration of the loop of `ImagesHandler` that fills `nodes`. -/
def newImageNode (hz : Humanize) (img : Image) : ImageNode :=
  { ID := img.ID
    ParentID := img.ParentID
    RepoTags := img.RepoTags
    RepoDigests := img.RepoDigests
    Created := hz.Time img.Created
    Size := hz.Bytes (toUint64 img.Size)
    VirtualSize := hz.Bytes (toUint64 img.VirtualSize)
    Labels := img.Labels }

/-- The slice `nodes` that `ImagesHandler` builds from the image listing. -/
def imageNodes (hz : Humanize) (images : List Image) : List ImageNode :=
  images.map (newImageNode hz)

/-- One call on the `http.ResponseWriter`. -/
inductive WriterCall where
  | WriteHeader (code : Nat)
  | Write (body : String)
  deriving DecidableEq, Repr

/-- The calls a handler made on its `http.ResponseWriter`, oldest first. -/
abbrev ResponseWriter := List WriterCall

/-- Constant `http.StatusBadRequest`. -/
def StatusBadRequest : Nat := 400

/-- The error branch shared by the handlers: status 400, then the message. -/
def engineFailed (w : ResponseWriter) (err : String) : ResponseWriter :=
  w ++ [WriterCall.WriteHeader StatusBadRequest,
        WriterCall.Write ("Docker engine endpoint failed: " ++ err)]

/-- What a handler hands back: the writer after its calls and the two results
`(interface{}, error)`, each `none` when it is nil. -/
structure Reply (α : Type) where
  w : ResponseWriter
  value : Option α
  err : Option String

/-- The value `ImagesHandler` returns: the root pointer, seen as the node slice
together with the `Children` of the root and of every node. -/
structure ImageTree where
  nodes : List ImageNode
  children : Heap

/-- Handler `ImagesHandler`; `listing` is the result of `dc.ImageList`.
The result is `none` when `root.add` recurses deeper than `fuel`. -/
def ImagesHandler (hz : Humanize) (fuel : Nat) (w : ResponseWriter)
    (listing : Except String (List Image)) : Option (Reply ImageTree) :=
  match listing with
  | .error err => some { w := engineFailed w err, value := none, err := none }
  | .ok images =>
    let nodes := imageNodes hz images
    match add nodes fuel none "" Heap.empty with
    | none => none
    | some h => some { w := w, value := some { nodes := nodes, children := h }, err := none }

/-- Field `ID` of the node a pointer refers to; the root is `&ImageNode{}`, whose
`ID` is the empty string. -/
def idOf (nodes : List ImageNode) : Ptr → Option String
  | none => some ""
  | some i => nodes[i]?.map ImageNode.ID

/-! ## Lineage chains and the appends of a run -/

/-- The parent reference of a record: its own `ID` and its `ParentID`. -/
structure Link where
  ID : String
  ParentID : String
  deriving DecidableEq, Repr

/-- The parent reference of an image record. -/
def Image.link (i : Image) : Link := { ID := i.ID, ParentID := i.ParentID }

/-- The parent reference of a node. -/
def ImageNode.link (n : ImageNode) : Link := { ID := n.ID, ParentID := n.ParentID }

/-- Whether `k` records `c₁, …, c_k` exist with `c₁.ParentID = id` and
`c_{j+1}.ParentID = c_j.ID`: a chain of `k` parent references read from the
ancestor `id` downwards, as `add` walks it. No reference is exempt: an empty
`ParentID` refers to the records whose `ID` is empty. -/
def chain (links : List Link) : Nat → String → Bool
  | 0, _ => true
  | k + 1, id => links.any fun c => decide (c.ParentID = id) && chain links k c.ID

/-- Whether `k` parent references can be followed upwards starting from the
reference `id`: records `m₁, …, m_k` with `m₁.ID = id` and
`m_{j+1}.ID = m_j.ParentID`, as `imageList` walks them. -/
def climb (links : List Link) : Nat → String → Bool
  | 0, _ => true
  | k + 1, id => links.any fun m => decide (m.ID = id) && climb links k m.ParentID

/-- Same as `climb`, except that an empty reference is read as "no parent" and is
never followed. -/
def climbNonEmpty (links : List Link) : Nat → String → Bool
  | 0, _ => true
  | k + 1, id =>
    decide (id ≠ "") && links.any fun m => decide (m.ID = id) && climbNonEmpty links k m.ParentID

/-- The parent references are acyclic: from no record can as many references be
followed upwards as there are records. Following that many references visits
one record more than the snapshot holds, hence some record twice; and a cycle
can be followed for ever (`acyclicRefs_iff`). Every reference counts, the empty
one included: a record refers to the records whose `ID` equals its `ParentID`. -/
def AcyclicRefs (images : List Image) : Bool :=
  (images.map Image.link).all fun r =>
    !climb (images.map Image.link) images.length r.ParentID

/-- The parent references are acyclic when an empty `ParentID` means "no parent":
as `AcyclicRefs`, but an empty reference ends the walk. -/
def AcyclicNonEmptyRefs (images : List Image) : Bool :=
  (images.map Image.link).all fun r =>
    !climbNonEmpty (images.map Image.link) images.length r.ParentID

/-- The appends `(holder, child)` that `add` performs, in program order, when it
is given `fuel` levels of recursion. -/
def appends (nodes : List ImageNode) : Nat → Ptr → String → List (Ptr × Nat)
  | 0, _, _ => []
  | fuel + 1, node, parent =>
    nodes.enum.flatMap fun p =>
      if p.2.ParentID = parent then (node, p.1) :: appends nodes fuel (some p.1) p.2.ID
      else []

/-- The heap after a sequence of appends. -/
def Heap.appendAll (h : Heap) (es : List (Ptr × Nat)) : Heap :=
  es.foldl (fun h e => h.append e.1 e.2) h

/-- A walk of `k` parent references from the ancestor `a` down to `b`. -/
def Walk (links : List Link) : Nat → String → String → Prop
  | 0, a, b => a = b
  | k + 1, a, b => ∃ c ∈ links, c.ParentID = a ∧ Walk links k c.ID b

/-! ## Properties of the tree -/

/-- Every node held in a `Children` slice names its holder as parent: the child
exists in `nodes`, the holder exists (the root counting as the node of empty
`ID`), and the child's `ParentID` is the holder's `ID`. -/
def ImageTree.ParentsMatch (t : ImageTree) : Prop :=
  ∀ (p : Ptr) (c : Nat), c ∈ t.children p →
    ∃ n, t.nodes[c]? = some n ∧ idOf t.nodes p = some n.ParentID

/-- Children ownership is exclusive: no node is held by two holders, and no
`Children` slice holds a node twice. -/
def ImageTree.Exclusive (t : ImageTree) : Prop :=
  (∀ (p q : Ptr) (c : Nat), c ∈ t.children p → c ∈ t.children q → p = q) ∧
  ∀ p : Ptr, (t.children p).Nodup


/-- The nodes found `k + 1` steps below the root when `Children` slices are
followed: those of depth one are the root's children. -/
def ImageTree.layer (t : ImageTree) : Nat → List Nat
  | 0 => t.children none
  | k + 1 => (t.layer k).flatMap fun i => t.children (some i)

/-- The nodes reachable from the root through `Children` slices, each listed
once. A node that can be reached at all can be reached along a path that
repeats no node, hence within as many steps as there are nodes. -/
def ImageTree.reachable (t : ImageTree) : List Nat :=
  ((List.range t.nodes.length).flatMap t.layer).dedup

/-- The number of nodes reachable from the root, the root not counted. -/
def ImageTree.reachableCount (t : ImageTree) : Nat := t.reachable.length

/-- Every non-empty `ParentID` of the snapshot is the `ID` of some record of the
snapshot. -/
def ParentsPresent (images : List Image) : Bool :=
  (images.map Image.link).all fun r =>
    decide (r.ParentID = "") ||
      (images.map Image.link).any fun m => decide (m.ID = r.ParentID)

/-- The record at position `c` lies `d` parent references below a record without
parent. -/
def Depth (nodes : List ImageNode) : Nat → Nat → Prop
  | 0, c => ∃ n, nodes[c]? = some n ∧ n.ParentID = ""
  | d + 1, c => ∃ n, nodes[c]? = some n ∧
      ∃ m nm, nodes[m]? = some nm ∧ nm.ID = n.ParentID ∧ Depth nodes d m


/-- Positions of the records of a snapshot whose `ParentID` is empty, in snapshot
order. -/
def rootRecords (images : List Image) : List Nat :=
  (images.enum.filter fun p => decide (p.2.ParentID = "")).map Prod.fst

/-- An image record with the given `ID` and `ParentID` and no other content. -/
def plainImage (id parent : String) : Image :=
  { ID := id, ParentID := parent, RepoTags := [], RepoDigests := [],
    Created := 0, Size := 0, VirtualSize := 0, Labels := [] }

/-- A rendering of times and sizes that prints nothing. -/
def silentHumanize : Humanize := { Time := fun _ => "", Bytes := fun _ => "" }


/-! ## Resource graph -/

/-- Record `types.Container`, with the fields `ContainerGraphHandler` reads. -/
structure Container where
  ID : String
  Names : List String
  deriving DecidableEq, Repr

/-- Record `types.ContainerJSON`, with the field `ContainerGraphHandler` reads. -/
structure ContainerJSON where
  Image : String
  deriving DecidableEq, Repr

/-- The answers of the engine client to the calls of `ContainerGraphHandler`. -/
structure Engine where
  ContainerList : Except String (List Container)
  ImageList : Except String (List Image)
  ContainerInspect : String → Except String ContainerJSON

/-- Function `imageList`; `out` is the slice behind the pointer. The result is
`none` when the recursion is deeper than `fuel`. -/
def imageList (nodes : List ImageNode) : Nat → List String → String → Option (List String)
  | 0, _, _ => none
  | fuel + 1, out, parent =>
    nodes.foldlM
      (fun out n =>
        if n.ID = parent then imageList nodes fuel (out ++ [n.ID]) n.ParentID
        else some out)
      out

/-- One iteration of the loop of `ContainerGraphHandler` that fills `inodes`:
only `ID` and `ParentID` are set. -/
def graphImageNode (img : Image) : ImageNode :=
  { ID := img.ID, ParentID := img.ParentID, RepoTags := [], RepoDigests := [],
    Created := "", Size := "", VirtualSize := "", Labels := [] }

/-- The `GraphNode` appended for a container `c` whose inspection gave `ci`. -/
def containerGraphNode (c : Container) (ci : ContainerJSON) : GraphNode :=
  { ID := c.ID, Type_ := "container", Names := c.Names, Images := [ci.Image] }

/-- The `GraphNode` appended for an image. -/
def imageGraphNode (i : Image) : GraphNode :=
  { ID := i.ID, Type_ := "image", Names := i.RepoTags, Images := [i.ParentID] }

/-- A finished call of `ContainerGraphHandler`: what it handed back, and the ids
it passed to `ContainerInspect`, in call order. -/
structure GraphRun where
  reply : Reply (List GraphNode)
  inspected : List String

/-- How the loop over the containers ends: by a `return` of the handler, or by
falling through with the slice `nodes`. -/
inductive LoopResult where
  | returned (run : GraphRun)
  | done (nodes : List GraphNode) (inspected : List String)

/-- The loop `for _, c := range containers` of `ContainerGraphHandler`. -/
def containerLoop (dc : Engine) (inodes : List ImageNode) (fuel : Nat) (w : ResponseWriter) :
    List Container → List GraphNode → List String → Option LoopResult
  | [], nodes, inspected => some (.done nodes inspected)
  | c :: rest, nodes, inspected =>
    match dc.ContainerInspect c.ID with
    | .error err =>
      some (.returned
        { reply := { w := engineFailed w err, value := none, err := none }
          inspected := inspected ++ [c.ID] })
    | .ok ci =>
      match imageList inodes fuel [] ci.Image with
      | none => none
      | some _ =>
        containerLoop dc inodes fuel w rest (nodes ++ [containerGraphNode c ci])
          (inspected ++ [c.ID])

/-- Handler `ContainerGraphHandler`. The result is `none` when a call of
`imageList` recurses deeper than `fuel`. -/
def ContainerGraphHandler (dc : Engine) (fuel : Nat) (w : ResponseWriter) : Option GraphRun :=
  match dc.ContainerList with
  | .error err =>
    some { reply := { w := engineFailed w err, value := none, err := none }, inspected := [] }
  | .ok containers =>
    match dc.ImageList with
    | .error err =>
      some { reply := { w := engineFailed w err, value := none, err := none }, inspected := [] }
    | .ok images =>
      match containerLoop dc (images.map graphImageNode) fuel w containers [] [] with
      | none => none
      | some (.returned run) => some run
      | some (.done nodes inspected) =>
        some
          { reply := { w := w, value := some (nodes ++ images.map imageGraphNode), err := none }
            inspected := inspected }

/-- The ids `imageList` appends to `out` when it is given `fuel` levels of
recursion. -/
def lineage (nodes : List ImageNode) : Nat → String → List String
  | 0, _ => []
  | fuel + 1, parent =>
    nodes.flatMap fun n =>
      if n.ID = parent then n.ID :: lineage nodes fuel n.ParentID else []

/-- Following `ParentID` upwards from the image id `id` comes to an end: fewer
references can be followed than would visit some record twice. -/
def LineageEnds (images : List Image) (id : String) : Bool :=
  !climb (images.map Image.link) (images.length + 1) id


/-- An engine with one container `c1` running image `x`, and one image `x` that
names itself as parent. Both listings and the inspection succeed. -/
def selfParentEngine : Engine :=
  { ContainerList := .ok [{ ID := "c1", Names := ["/c1"] }]
    ImageList := .ok [plainImage "x" "x"]
    ContainerInspect := fun _ => .ok { Image := "x" } }

/-- An engine with two containers and one image, whose inspection of `c1` fails. -/
def failingInspectEngine : Engine :=
  { ContainerList := .ok [{ ID := "c1", Names := ["/c1"] }, { ID := "c2", Names := ["/c2"] }]
    ImageList := .ok [plainImage "img1" ""]
    ContainerInspect := fun id =>
      if id = "c1" then .error "no such container" else .ok { Image := "img1" } }

/-- An engine with three containers, whose inspection of the second one fails. -/
def secondFailsEngine : Engine :=
  { ContainerList := .ok [{ ID := "c1", Names := ["/c1"] }, { ID := "c2", Names := ["/c2"] },
      { ID := "c3", Names := ["/c3"] }]
    ImageList := .ok [plainImage "img1" ""]
    ContainerInspect := fun id =>
      if id = "c2" then .error "no such container" else .ok { Image := "img1" } }

/-- The engine of the scenario: container `c1` running `img1`, image `img1`
without parent. -/
def scenarioEngine : Engine :=
  { ContainerList := .ok [{ ID := "c1", Names := [] }]
    ImageList := .ok [plainImage "img1" ""]
    ContainerInspect := fun _ => .ok { Image := "img1" } }


/-! ## Event pipeline -/

/-- Struct `DockerEvent`; `Msg` stands for `events.Message`, `Time` for
`time.Time`. Its field `Type` is named `Type_` here; `Data` is the message the
pointer refers to. -/
structure DockerEvent (Msg Time : Type) where
  From : String
  Type_ : String
  Data : Msg
  Timestamp : Time
  deriving DecidableEq, Repr

/-- The outcome of one call `d.Decode(&data)` on a fresh `data`: success with the
decoded message, an error other than `io.EOF` together with what the call left
in `data`, or `io.EOF`. -/
inductive Decoded (Msg : Type) where
  | ok (data : Msg)
  | failed (err : String) (data : Msg)
  | eof
  deriving DecidableEq, Repr

/-- The two results `(r, err)` of `dc.Events`: the stream, given by the outcomes
its decoder will yield, and the error; each is `none` when nil. -/
structure EventsResult (Msg : Type) where
  r : Option (List (Decoded Msg))
  err : Option String

/-- What `EchoEvents` takes from its surroundings: the value of the `k`-th call
of `time.Now` and the function `json.Marshal` on envelopes. -/
structure EventEnv (Msg Time Bytes : Type) where
  now : Nat → Time
  Marshal : DockerEvent Msg Time → Except String Bytes

/-- Where the decode goroutine stands: about to call `Decode`, blocked on the
send `messages <- …`, or past the `break`. -/
inductive DecodeTask (Msg Time : Type) where
  | reading
  | sending (msg : DockerEvent Msg Time)
  | exited
  deriving DecidableEq, Repr

/-- Where the dispatch loop stands: blocked on the receive `<-messages`, or
holding a received envelope that it is about to marshal and broadcast. -/
inductive DispatchLoop (Msg Time : Type) where
  | receiving
  | forwarding (msg : DockerEvent Msg Time)
  deriving DecidableEq, Repr

/-- The state of a running `EchoEvents`. -/
structure Pipeline (Msg Time Bytes : Type) where
  /-- Outcomes the decoder has yet to yield. -/
  feed : List (Decoded Msg)
  /-- Number of calls of `time.Now` so far. -/
  clock : Nat
  decode : DecodeTask Msg Time
  dispatch : DispatchLoop Msg Time
  /-- Lines written by `fmt.Println`. -/
  printed : List String
  /-- Values sent on `wsHub.broadcast`, oldest first; `none` is the nil slice that
  `json.Marshal` returns with an error. -/
  broadcast : List (Option Bytes)
  deriving DecidableEq, Repr

/-- The pipeline at the moment the two loops start on `feed`. -/
def Pipeline.init {Msg Time Bytes : Type} (feed : List (Decoded Msg)) (printed : List String) :
    Pipeline Msg Time Bytes :=
  { feed := feed, clock := 0, decode := .reading, dispatch := .receiving,
    printed := printed, broadcast := [] }


/-- How `EchoEvents` stands after its statements up to the dispatch loop. -/
inductive EchoState (Msg Time Bytes : Type) where
  /-- The statement `defer r.Close()` took the method of a nil `r`: a run-time
  panic, after the given lines were printed. -/
  | panicked (printed : List String)
  /-- The decode goroutine is started and the dispatch loop entered. -/
  | streaming (p : Pipeline Msg Time Bytes)

/-- The statements of `EchoEvents` from `dc.Events` to the start of the two
loops. An error is printed and nothing else: no statement returns. -/
def EchoEvents.start {Msg Time Bytes : Type} (opened : EventsResult Msg) :
    EchoState Msg Time Bytes :=
  let printed := match opened.err with
    | some err => [err]
    | none => []
  match opened.r with
  | none => .panicked printed
  | some feed => .streaming (Pipeline.init feed printed)

/-- The steps of the running pipeline: a step of the decode goroutine on its own,
the hand-over of an envelope on the unbuffered channel `messages`, a step of
the dispatch loop on its own. -/
inductive Move where
  | decode
  | handoff
  | dispatch
  deriving DecidableEq, Repr

/-- One step of the running pipeline; `none` when the step is not enabled. -/
def EchoEvents.step {Msg Time Bytes : Type} (env : EventEnv Msg Time Bytes) :
    Move → Pipeline Msg Time Bytes → Option (Pipeline Msg Time Bytes)
  | .decode, p =>
    match p.decode, p.feed with
    | .reading, .ok data :: rest =>
      some { p with
        feed := rest, clock := p.clock + 1
        decode := .sending
          { From := "docker", Type_ := "event", Data := data, Timestamp := env.now p.clock } }
    | .reading, .failed err data :: rest =>
      some { p with
        feed := rest, clock := p.clock + 1, printed := p.printed ++ [err]
        decode := .sending
          { From := "docker", Type_ := "event", Data := data, Timestamp := env.now p.clock } }
    | .reading, .eof :: rest => some { p with feed := rest, decode := .exited }
    | _, _ => none
  | .handoff, p =>
    match p.decode, p.dispatch with
    | .sending msg, .receiving => some { p with decode := .reading, dispatch := .forwarding msg }
    | _, _ => none
  | .dispatch, p =>
    match p.dispatch with
    | .forwarding msg =>
      match env.Marshal msg with
      | .ok data =>
        some { p with dispatch := .receiving, broadcast := p.broadcast ++ [some data] }
      | .error err =>
        some { p with
          dispatch := .receiving, printed := p.printed ++ [err]
          broadcast := p.broadcast ++ [none] }
    | .receiving => none

/-- A sequence of steps, each of which must be enabled. -/
def EchoEvents.run {Msg Time Bytes : Type} (env : EventEnv Msg Time Bytes) :
    List Move → Pipeline Msg Time Bytes → Option (Pipeline Msg Time Bytes)
  | [], p => some p
  | m :: ms, p =>
    match EchoEvents.step env m p with
    | none => none
    | some q => EchoEvents.run env ms q

/-- No step is enabled: both loops are blocked or ended. -/
def Quiescent {Msg Time Bytes : Type} (env : EventEnv Msg Time Bytes)
    (p : Pipeline Msg Time Bytes) : Prop :=
  ∀ m, EchoEvents.step env m p = none

/-- The envelopes the decode goroutine goes on to construct from the remaining
outcomes, `k` calls of `time.Now` having been made. -/
def envelopes {Msg Time : Type} (now : Nat → Time) :
    Nat → List (Decoded Msg) → List (DockerEvent Msg Time)
  | _, [] => []
  | k, .ok data :: rest =>
    { From := "docker", Type_ := "event", Data := data, Timestamp := now k }
      :: envelopes now (k + 1) rest
  | k, .failed _ data :: rest =>
    { From := "docker", Type_ := "event", Data := data, Timestamp := now k }
      :: envelopes now (k + 1) rest
  | _, .eof :: _ => []

/-- The value the dispatch loop sends on `wsHub.broadcast` for an envelope. -/
def broadcastOf {Msg Time Bytes : Type} (env : EventEnv Msg Time Bytes)
    (msg : DockerEvent Msg Time) : Option Bytes :=
  match env.Marshal msg with
  | .ok data => some data
  | .error _ => none

/-- Everything the pipeline has broadcast or has yet to broadcast, in order: the
values already sent, the envelope the dispatch loop holds, the envelope the
decode goroutine is sending, and the envelopes still to be decoded. -/
def outlook {Msg Time Bytes : Type} (env : EventEnv Msg Time Bytes)
    (p : Pipeline Msg Time Bytes) : List (Option Bytes) :=
  p.broadcast
    ++ (match p.dispatch with
        | .forwarding msg => [broadcastOf env msg]
        | .receiving => [])
    ++ (match p.decode with
        | .sending msg => broadcastOf env msg :: (envelopes env.now p.clock p.feed).map
            (broadcastOf env)
        | .reading => (envelopes env.now p.clock p.feed).map (broadcastOf env)
        | .exited => [])

/-- An upper bound on the number of steps the pipeline can still take. -/
def stepsLeft {Msg Time Bytes : Type} (p : Pipeline Msg Time Bytes) : Nat :=
  3 * p.feed.length
    + (match p.decode with
        | .sending _ => 2
        | _ => 0)
    + (match p.dispatch with
        | .forwarding _ => 1
        | .receiving => 0)

/-- The envelopes for a sequence of decoded events, the first one stamped with
the `k`-th value of `time.Now`. -/
def stamped {Msg Time : Type} (now : Nat → Time) : Nat → List Msg → List (DockerEvent Msg Time)
  | _, [] => []
  | k, e :: es =>
    { From := "docker", Type_ := "event", Data := e, Timestamp := now k }
      :: stamped now (k + 1) es

/-- Every envelope in flight carries the tags the decode goroutine writes. -/
def Tagged {Msg Time Bytes : Type} (p : Pipeline Msg Time Bytes) : Prop :=
  (∀ msg, p.decode = .sending msg → msg.From = "docker" ∧ msg.Type_ = "event") ∧
  (∀ msg, p.dispatch = .forwarding msg → msg.From = "docker" ∧ msg.Type_ = "event")

/-- Surroundings for the examples: messages are strings, the `k`-th call of
`time.Now` gives `k`, and an envelope is broadcast as it is. -/
def plainEnv : EventEnv String Nat (DockerEvent String Nat) :=
  { now := fun k => k, Marshal := fun msg => .ok msg }


/-! ## Theorems -/

theorem Heap.appendAll_apply (h : Heap) (es : List (Ptr × Nat)) (q : Ptr) :
    h.appendAll es q = h q ++ (es.filter fun e => decide (e.1 = q)).map Prod.snd := by
  induction es generalizing h with
  | nil => simp [Heap.appendAll]
  | cons e es ih =>
    have ih2 := ih (h.append e.1 e.2)
    simp only [Heap.appendAll, List.foldl_cons] at ih2 ⊢
    rw [ih2]
    by_cases hq : e.1 = q
    · simp [Heap.append, hq, List.filter_cons]
    · have hq2 : ¬ q = e.1 := fun h => hq h.symm
      simp [Heap.append, hq, hq2, List.filter_cons]

theorem chain_succ_enum (nodes : List ImageNode) (k : Nat) (id : String) :
    chain (nodes.map ImageNode.link) (k + 1) id
      = nodes.enum.any fun p =>
          decide (p.2.ParentID = id) && chain (nodes.map ImageNode.link) k p.2.ID := by
  have h : nodes.enum.any (fun p =>
        decide (p.2.ParentID = id) && chain (nodes.map ImageNode.link) k p.2.ID)
      = ((nodes.enum.map Prod.snd).map ImageNode.link).any
          (fun c => decide (c.ParentID = id) && chain (nodes.map ImageNode.link) k c.ID) := by
    generalize nodes.enum = l
    induction l with
    | nil => rfl
    | cons p l ih => simp only [List.any_cons, List.map_cons, ih, ImageNode.link]
  rw [h, List.enum_map_snd]; rfl

/-- Exact behaviour of `add`: it fails precisely when a chain of `fuel` references
hangs below `parent`, and otherwise performs the appends of `appends`. -/
theorem add_eq (nodes : List ImageNode) (fuel : Nat) (node : Ptr) (parent : String) (h : Heap) :
    add nodes fuel node parent h
      = if chain (nodes.map ImageNode.link) fuel parent then none
        else some (h.appendAll (appends nodes fuel node parent)) := by
  induction fuel generalizing node parent h with
  | zero => simp [add, chain]
  | succ k ih =>
    rw [chain_succ_enum]
    simp only [add, appends]
    generalize nodes.enum = l
    induction l generalizing h with
    | nil => simp [Heap.appendAll]
    | cons p l ihl =>
      simp only [List.foldlM_cons, List.any_cons, List.flatMap_cons]
      by_cases hp : p.2.ParentID = parent
      · simp only [hp, if_true, decide_True, Bool.true_and]
        rw [ih]
        by_cases hc : chain (nodes.map ImageNode.link) k p.2.ID = true
        · simp [hc]
        · simp only [hc, Bool.false_eq_true, if_false, Bool.false_or]
          simp only [Option.some_bind, Option.bind_eq_bind]
          rw [ihl]
          simp [Heap.appendAll, List.foldl_append]
      · simp only [hp, if_false, decide_False, Bool.false_and, Bool.false_or, List.nil_append]
        simp only [Option.some_bind, Option.bind_eq_bind]
        rw [ihl]

theorem chain_iff_walk (links : List Link) (k : Nat) (a : String) :
    chain links k a = true ↔ ∃ b, Walk links k a b := by
  induction k generalizing a with
  | zero => simp [chain, Walk]
  | succ k ih =>
    simp only [chain, Walk, List.any_eq_true, Bool.and_eq_true, decide_eq_true_eq]
    constructor
    · rintro ⟨c, hc, hp, hk⟩
      obtain ⟨b, hb⟩ := (ih c.ID).1 hk
      exact ⟨b, c, hc, hp, hb⟩
    · rintro ⟨b, c, hc, hp, hb⟩
      exact ⟨c, hc, hp, (ih c.ID).2 ⟨b, hb⟩⟩

theorem Walk.snoc {links : List Link} {k : Nat} {a : String} {c : Link}
    (hw : Walk links k a c.ParentID) (hc : c ∈ links) : Walk links (k + 1) a c.ID := by
  induction k generalizing a with
  | zero =>
    simp only [Walk] at hw
    exact ⟨c, hc, hw.symm, rfl⟩
  | succ k ih =>
    obtain ⟨d, hd, hp, hk⟩ := hw
    exact ⟨d, hd, hp, ih hk⟩

theorem Walk.last {links : List Link} {k : Nat} {a b : String}
    (hw : Walk links (k + 1) a b) : ∃ m ∈ links, m.ID = b ∧ Walk links k a m.ParentID := by
  induction k generalizing a with
  | zero =>
    obtain ⟨c, hc, hp, hk⟩ := hw
    simp only [Walk] at hk
    exact ⟨c, hc, hk, hp.symm⟩
  | succ k ih =>
    obtain ⟨c, hc, hp, hk⟩ := hw
    obtain ⟨m, hm, hid, hw2⟩ := ih hk
    exact ⟨m, hm, hid, c, hc, hp, hw2⟩

theorem climb_iff_walk (links : List Link) (k : Nat) (b : String) :
    climb links k b = true ↔ ∃ a, Walk links k a b := by
  induction k generalizing b with
  | zero => simp [climb, Walk]
  | succ k ih =>
    simp only [climb, List.any_eq_true, Bool.and_eq_true, decide_eq_true_eq]
    constructor
    · rintro ⟨m, hm, hid, hk⟩
      obtain ⟨a, ha⟩ := (ih m.ParentID).1 hk
      exact ⟨a, hid ▸ Walk.snoc ha hm⟩
    · rintro ⟨a, hw⟩
      obtain ⟨m, hm, hid, hw2⟩ := Walk.last hw
      exact ⟨m, hm, hid, (ih m.ParentID).2 ⟨a, hw2⟩⟩

/-- A chain can be shortened. -/
theorem chain_pred {links : List Link} {k : Nat} {a : String}
    (h : chain links (k + 1) a = true) : chain links k a = true := by
  obtain ⟨b, hw⟩ := (chain_iff_walk links (k + 1) a).1 h
  obtain ⟨m, _, _, hw2⟩ := Walk.last hw
  exact (chain_iff_walk links k a).2 ⟨_, hw2⟩

theorem chain_of_le {links : List Link} {j k : Nat} {a : String} (hjk : j ≤ k)
    (h : chain links k a = true) : chain links j a = true := by
  induction hjk with
  | refl => exact h
  | step _ ih => exact ih (chain_pred h)

/-- The references that can be followed upwards from some record are the chains
that hang below some record, read in the other direction. -/
theorem exists_chain_iff_exists_climb (links : List Link) (k : Nat) :
    (∃ c ∈ links, chain links k c.ID = true) ↔ (∃ r ∈ links, climb links k r.ParentID = true) := by
  constructor
  · rintro ⟨c, hc, h⟩
    obtain ⟨b, hw⟩ := (chain_iff_walk links k c.ID).1 h
    have hw1 : Walk links (k + 1) c.ParentID b := ⟨c, hc, rfl, hw⟩
    obtain ⟨m, hm, _, hw2⟩ := Walk.last hw1
    exact ⟨m, hm, (climb_iff_walk links k m.ParentID).2 ⟨_, hw2⟩⟩
  · rintro ⟨r, hr, h⟩
    obtain ⟨a, hw⟩ := (climb_iff_walk links k r.ParentID).1 h
    obtain ⟨c, hc, _, hw2⟩ := Walk.snoc hw hr
    exact ⟨c, hc, (chain_iff_walk links k c.ID).2 ⟨_, hw2⟩⟩

theorem AcyclicRefs.climb_false {images : List Image} (h : AcyclicRefs images = true)
    {r : Link} (hr : r ∈ images.map Image.link) :
    climb (images.map Image.link) images.length r.ParentID = false := by
  simp only [AcyclicRefs, List.all_eq_true, Bool.not_eq_true'] at h
  exact h r hr

theorem AcyclicRefs.chain_false {images : List Image} (h : AcyclicRefs images = true)
    {c : Link} (hc : c ∈ images.map Image.link) :
    chain (images.map Image.link) images.length c.ID = false := by
  by_contra hne
  have ht : chain (images.map Image.link) images.length c.ID = true := by
    simpa using hne
  obtain ⟨r, hr, hcl⟩ := (exists_chain_iff_exists_climb _ _).1 ⟨c, hc, ht⟩
  rw [AcyclicRefs.climb_false h hr] at hcl
  exact Bool.false_ne_true hcl

/-- Below no reference of an acyclic snapshot hangs a chain longer than the
snapshot. -/
theorem AcyclicRefs.chain_succ_false {images : List Image} (h : AcyclicRefs images = true)
    (id : String) : chain (images.map Image.link) (images.length + 1) id = false := by
  by_contra hne
  have ht : chain (images.map Image.link) (images.length + 1) id = true := by
    simpa using hne
  simp only [chain, List.any_eq_true, Bool.and_eq_true, decide_eq_true_eq] at ht
  obtain ⟨c, hc, _, hk⟩ := ht
  rw [AcyclicRefs.chain_false h hc] at hk
  exact Bool.false_ne_true hk

theorem imageNodes_link (hz : Humanize) (images : List Image) :
    (imageNodes hz images).map ImageNode.link = images.map Image.link := by
  simp [imageNodes, List.map_map, Function.comp_def, ImageNode.link, Image.link, newImageNode]

theorem imageNodes_length (hz : Humanize) (images : List Image) :
    (imageNodes hz images).length = images.length := by
  simp [imageNodes]

theorem mem_appends_succ {nodes : List ImageNode} {k : Nat} {node : Ptr} {parent : String}
    {e : Ptr × Nat} :
    e ∈ appends nodes (k + 1) node parent ↔
      ∃ p ∈ nodes.enum, p.2.ParentID = parent ∧
        (e = (node, p.1) ∨ e ∈ appends nodes k (some p.1) p.2.ID) := by
  simp only [appends, List.mem_flatMap]
  constructor
  · rintro ⟨p, hp, he⟩
    by_cases hpar : p.2.ParentID = parent
    · simp only [hpar, if_true, List.mem_cons] at he
      exact ⟨p, hp, hpar, he⟩
    · simp [hpar] at he
  · rintro ⟨p, hp, hpar, he⟩
    refine ⟨p, hp, ?_⟩
    simp only [hpar, if_true, List.mem_cons]
    exact he

/-- Only the receiver of the outermost call and nodes of the slice hold children. -/
theorem appends_holder {nodes : List ImageNode} {k : Nat} {node : Ptr} {parent : String}
    {e : Ptr × Nat} (he : e ∈ appends nodes k node parent) : e.1 = node ∨ ∃ j, e.1 = some j := by
  induction k generalizing node parent with
  | zero => simp [appends] at he
  | succ k ih =>
    obtain ⟨p, _, _, h | h⟩ := mem_appends_succ.1 he
    · left; rw [h]
    · right
      rcases ih h with h1 | h1
      · exact ⟨p.1, h1⟩
      · exact h1

theorem appends_parent {nodes : List ImageNode} {k : Nat} {node : Ptr} {parent : String}
    (hid : idOf nodes node = some parent) {e : Ptr × Nat}
    (he : e ∈ appends nodes k node parent) :
    ∃ n, nodes[e.2]? = some n ∧ idOf nodes e.1 = some n.ParentID := by
  induction k generalizing node parent with
  | zero => simp [appends] at he
  | succ k ih =>
    obtain ⟨p, hp, hpar, h | h⟩ := mem_appends_succ.1 he
    · refine ⟨p.2, ?_, ?_⟩
      · rw [h]; exact List.mem_enum_iff_getElem?.1 hp
      · rw [h, hpar]; exact hid
    · refine ih ?_ h
      have hget : nodes[p.1]? = some p.2 := List.mem_enum_iff_getElem?.1 hp
      simp [idOf, hget]

/-- The root receives exactly the records the outermost loop matches. -/
theorem appends_root (nodes : List ImageNode) (k : Nat) (parent : String) :
    ((appends nodes (k + 1) none parent).filter fun e => decide (e.1 = none)).map Prod.snd
      = (nodes.enum.filter fun p => decide (p.2.ParentID = parent)).map Prod.fst := by
  simp only [appends]
  generalize nodes.enum = l
  induction l with
  | nil => rfl
  | cons p l ih =>
    simp only [List.flatMap_cons, List.filter_append, List.map_append, ih]
    have hnil : (appends nodes k (some p.1) p.2.ID).filter (fun e => decide (e.1 = none)) = [] := by
      rw [List.filter_eq_nil_iff]
      intro e he
      rcases appends_holder he with h | ⟨j, h⟩ <;> simp [h]
    by_cases hpar : p.2.ParentID = parent
    · simp [hpar, List.filter_cons, hnil]
    · simp [hpar, List.filter_cons]

/-- What `ImagesHandler` returns on a successful listing. -/
theorem ImagesHandler_ok (hz : Humanize) (fuel : Nat) (w : ResponseWriter) (images : List Image) :
    ImagesHandler hz fuel w (.ok images)
      = if chain (images.map Image.link) fuel "" then none
        else some
          { w := w
            value := some
              { nodes := imageNodes hz images
                children := Heap.empty.appendAll (appends (imageNodes hz images) fuel none "") }
            err := none } := by
  simp only [ImagesHandler, add_eq, imageNodes_link]
  by_cases hc : chain (images.map Image.link) fuel "" = true
  · simp [hc]
  · simp [hc]

theorem rootRecords_eq (hz : Humanize) (images : List Image) :
    rootRecords images
      = ((imageNodes hz images).enum.filter fun p => decide (p.2.ParentID = "")).map Prod.fst := by
  simp only [rootRecords, imageNodes, List.enum_map, List.filter_map, List.map_map]
  rfl

theorem flatMap_eq_of_forall {α β : Type} (l : List α) (f g : α → List β)
    (h : ∀ x ∈ l, f x = g x) : l.flatMap f = l.flatMap g := by
  induction l with
  | nil => rfl
  | cons x l ih =>
    simp only [List.flatMap_cons]
    rw [h x (List.mem_cons_self _ _), ih (fun y hy => h y (List.mem_cons_of_mem _ hy))]

/-- Once the recursion fits into `k` levels, more levels change nothing. -/
theorem appends_succ_of_chain_false {nodes : List ImageNode} {k : Nat} {parent : String}
    (hc : chain (nodes.map ImageNode.link) k parent = false) (node : Ptr) :
    appends nodes (k + 1) node parent = appends nodes k node parent := by
  induction k generalizing node parent with
  | zero => simp [chain] at hc
  | succ k ih =>
    rw [chain_succ_enum] at hc
    have hall := List.any_eq_false.1 hc
    show (nodes.enum.flatMap fun p =>
        if p.2.ParentID = parent then (node, p.1) :: appends nodes (k + 1) (some p.1) p.2.ID
        else [])
      = nodes.enum.flatMap fun p =>
        if p.2.ParentID = parent then (node, p.1) :: appends nodes k (some p.1) p.2.ID
        else []
    apply flatMap_eq_of_forall
    intro p hp
    by_cases hpar : p.2.ParentID = parent
    · have hck : chain (nodes.map ImageNode.link) k p.2.ID = false := by
        have := hall p hp
        simpa [hpar] using this
      simp only [hpar, if_true, ih hck (some p.1)]
    · simp only [hpar, if_false]

theorem appends_of_chain_false {nodes : List ImageNode} {k : Nat} {parent : String}
    (hc : chain (nodes.map ImageNode.link) k parent = false) (node : Ptr) (j : Nat) :
    appends nodes (k + j) node parent = appends nodes k node parent := by
  induction j with
  | zero => rfl
  | succ j ih =>
    have hcj : chain (nodes.map ImageNode.link) (k + j) parent = false := by
      by_contra hne
      have ht : chain (nodes.map ImageNode.link) (k + j) parent = true := by simpa using hne
      have := chain_of_le (Nat.le_add_right k j) ht
      rw [hc] at this
      exact Bool.false_ne_true this
    rw [← ih]
    exact appends_succ_of_chain_false hcj node

/-- The reply of `ImagesHandler` does not depend on the depth bound under which
it was obtained. -/
theorem ImagesHandler_fuel_irrelevant (hz : Humanize) (w : ResponseWriter)
    (listing : Except String (List Image)) {f₁ f₂ : Nat} {r₁ r₂ : Reply ImageTree}
    (h₁ : ImagesHandler hz f₁ w listing = some r₁)
    (h₂ : ImagesHandler hz f₂ w listing = some r₂) : r₁ = r₂ := by
  cases listing with
  | error err =>
    simp only [ImagesHandler, Option.some.injEq] at h₁ h₂
    rw [← h₁, ← h₂]
  | ok images =>
    rw [ImagesHandler_ok] at h₁ h₂
    by_cases hc₁ : chain (images.map Image.link) f₁ "" = true
    · simp [hc₁] at h₁
    by_cases hc₂ : chain (images.map Image.link) f₂ "" = true
    · simp [hc₂] at h₂
    simp only [hc₁, hc₂, Bool.false_eq_true, if_false, Option.some.injEq] at h₁ h₂
    have e₁ : chain ((imageNodes hz images).map ImageNode.link) f₁ "" = false := by
      rw [imageNodes_link]; simpa using hc₁
    have e₂ : chain ((imageNodes hz images).map ImageNode.link) f₂ "" = false := by
      rw [imageNodes_link]; simpa using hc₂
    have key : appends (imageNodes hz images) f₁ none ""
        = appends (imageNodes hz images) f₂ none "" := by
      rcases Nat.le_total f₁ f₂ with hle | hle
      · obtain ⟨j, rfl⟩ := Nat.exists_eq_add_of_le hle
        exact (appends_of_chain_false e₁ none j).symm
      · obtain ⟨j, rfl⟩ := Nat.exists_eq_add_of_le hle
        exact appends_of_chain_false e₂ none j
    rw [← h₁, ← h₂, key]

theorem chain_empty_id_loop (k : Nat) : chain [(plainImage "" "").link] k "" = true := by
  induction k with
  | zero => rfl
  | succ k ih =>
    simp only [chain, List.any_cons, List.any_nil, Bool.or_false, Bool.and_eq_true,
      decide_eq_true_eq]
    exact ⟨rfl, ih⟩

/-- When no record has an empty `ID`, reading the empty `ParentID` as "no parent"
changes nothing. -/
theorem climbNonEmpty_of_climb {links : List Link} (hne : ∀ m ∈ links, m.ID ≠ "")
    {k : Nat} {id : String} (h : climb links k id = true) : climbNonEmpty links k id = true := by
  induction k generalizing id with
  | zero => rfl
  | succ k ih =>
    simp only [climb, List.any_eq_true, Bool.and_eq_true, decide_eq_true_eq] at h
    obtain ⟨m, hm, hid, hk⟩ := h
    simp only [climbNonEmpty, List.any_eq_true, Bool.and_eq_true, decide_eq_true_eq]
    exact ⟨hid ▸ hne m hm, m, hm, hid, ih hk⟩

theorem AcyclicRefs_of_nonEmpty {images : List Image} (hne : ∀ i ∈ images, i.ID ≠ "")
    (h : AcyclicNonEmptyRefs images = true) : AcyclicRefs images = true := by
  simp only [AcyclicNonEmptyRefs, AcyclicRefs, List.all_eq_true, Bool.not_eq_true'] at h ⊢
  intro r hr
  by_contra hc
  have ht : climb (images.map Image.link) images.length r.ParentID = true := by simpa using hc
  have hne2 : ∀ m ∈ images.map Image.link, m.ID ≠ "" := by
    intro m hm
    obtain ⟨i, hi, rfl⟩ := List.mem_map.1 hm
    exact hne i hi
  have h1 := h r hr
  rw [climbNonEmpty_of_climb hne2 ht] at h1
  exact Bool.noConfusion h1

/-- Whatever the snapshot, a tree that `ImagesHandler` returns has each node held
in a `Children` slice under the holder its `ParentID` names, and the records
with empty `ParentID` as the root's `Children`, in snapshot order. -/
theorem ImagesHandler_shape (hz : Humanize) (w : ResponseWriter) (images : List Image)
    (fuel : Nat) (r : Reply ImageTree)
    (hr : ImagesHandler hz fuel w (.ok images) = some r) :
    ∃ t, r.value = some t ∧ r.err = none ∧ r.w = w ∧ t.nodes = imageNodes hz images ∧
      t.ParentsMatch ∧ t.children none = rootRecords images := by
  rw [ImagesHandler_ok] at hr
  cases fuel with
  | zero => simp [chain] at hr
  | succ k =>
    by_cases hc : chain (images.map Image.link) (k + 1) "" = true
    · simp [hc] at hr
    · simp only [hc, Bool.false_eq_true, if_false, Option.some.injEq] at hr
      subst hr
      refine ⟨_, rfl, rfl, rfl, rfl, ?_, ?_⟩
      · intro p c hcp
        simp only [Heap.appendAll_apply, Heap.empty, List.nil_append, List.mem_map,
          List.mem_filter, decide_eq_true_eq] at hcp
        obtain ⟨e, ⟨he, hep⟩, hec⟩ := hcp
        have hroot : idOf (imageNodes hz images) none = some "" := rfl
        obtain ⟨n, hn, hid⟩ := appends_parent hroot he
        exact ⟨n, hec ▸ hn, hep ▸ hid⟩
      · simp only [Heap.appendAll_apply, Heap.empty, List.nil_append]
        rw [appends_root, rootRecords_eq hz]

theorem chain_through_empty_id_loop (k : Nat) :
    chain [(plainImage "" "Y").link, (plainImage "Y" "").link] k "" = true ∧
    chain [(plainImage "" "Y").link, (plainImage "Y" "").link] k "Y" = true := by
  induction k with
  | zero => exact ⟨rfl, rfl⟩
  | succ k ih =>
    constructor
    · simp only [chain, List.any_cons, List.any_nil, Bool.or_false, Bool.or_eq_true,
        Bool.and_eq_true, decide_eq_true_eq]
      exact Or.inr ⟨rfl, ih.2⟩
    · simp only [chain, List.any_cons, List.any_nil, Bool.or_false, Bool.or_eq_true,
        Bool.and_eq_true, decide_eq_true_eq]
      exact Or.inl ⟨rfl, ih.1⟩

/-- C1, as stated, fails: the snapshot `[{"", Y}, {Y, ""}]` is acyclic when an
empty `ParentID` means "no parent" (the record `Y` has no parent, the record of
empty id has parent `Y`), yet the root, matched by the empty string, receives
`Y`, `Y` receives the record of empty id, and that record receives `Y` again:
`root.add` recurses beyond every depth and `ImagesHandler` builds no tree. -/
theorem imagesHandler_builds_no_tree :
    AcyclicNonEmptyRefs [plainImage "" "Y", plainImage "Y" ""] = true ∧
    ¬ ∃ fuel r, ImagesHandler silentHumanize fuel []
        (.ok [plainImage "" "Y", plainImage "Y" ""]) = some r := by
  refine ⟨by decide, ?_⟩
  rintro ⟨fuel, r, h⟩
  rw [ImagesHandler_ok] at h
  have hc := (chain_through_empty_id_loop fuel).1
  simp only [List.map_cons, List.map_nil] at h
  simp only [hc, if_true] at h
  exact Option.noConfusion h


/-- C1 (amended): for every image snapshot whose parent references are acyclic,
the empty reference counting as a reference to the records of empty `ID`,
`ImagesHandler` returns a tree (a recursion depth of one more than the number of
records is enough), and in every tree it returns each node held in a `Children`
slice has `ParentID` equal to the `ID` of its holder (the root counting as `""`),
and the root's `Children` are exactly the records with empty `ParentID`, in
snapshot order. -/
theorem imagesHandler_tree (hz : Humanize) (w : ResponseWriter) (images : List Image)
    (hacyc : AcyclicRefs images = true) :
    (∃ r, ImagesHandler hz (images.length + 1) w (.ok images) = some r) ∧
    ∀ fuel r, ImagesHandler hz fuel w (.ok images) = some r →
      ∃ t, r.value = some t ∧ r.err = none ∧ r.w = w ∧ t.nodes = imageNodes hz images ∧
        t.ParentsMatch ∧ t.children none = rootRecords images := by
  constructor
  · rw [ImagesHandler_ok, AcyclicRefs.chain_succ_false hacyc]
    exact ⟨_, rfl⟩
  · intro fuel r hr
    exact ImagesHandler_shape hz w images fuel r hr

theorem imagesHandler_tree_witness :
    AcyclicRefs [plainImage "A" "", plainImage "B" "A", plainImage "C" "A"] = true ∧
    ((ImagesHandler silentHumanize 4 []
        (.ok [plainImage "A" "", plainImage "B" "A", plainImage "C" "A"])).bind
      fun r => r.value.map fun t =>
        [t.children none, t.children (some 0), t.children (some 1), t.children (some 2)])
      = some [[0], [1, 2], [], []] ∧
    ((∃ r, ImagesHandler silentHumanize 4 []
        (.ok [plainImage "A" "", plainImage "B" "A", plainImage "C" "A"]) = some r) ∧
    ∀ fuel r, ImagesHandler silentHumanize fuel []
        (.ok [plainImage "A" "", plainImage "B" "A", plainImage "C" "A"]) = some r →
      ∃ t, r.value = some t ∧ r.err = none ∧ r.w = [] ∧
        t.nodes = imageNodes silentHumanize
          [plainImage "A" "", plainImage "B" "A", plainImage "C" "A"] ∧
        t.ParentsMatch ∧
        t.children none
          = rootRecords [plainImage "A" "", plainImage "B" "A", plainImage "C" "A"]) :=
  ⟨by decide, by decide,
    imagesHandler_tree silentHumanize []
      [plainImage "A" "", plainImage "B" "A", plainImage "C" "A"] (by decide)⟩

/-- C10, as stated, fails: the snapshot of one record with empty `ID` and empty
`ParentID` is acyclic when the empty `ParentID` means "no parent", yet `root.add`
recurses beyond every depth, so `ImagesHandler` never returns. -/
theorem imagesHandler_loops_on_empty_id :
    AcyclicNonEmptyRefs [plainImage "" ""] = true ∧
    ∀ fuel, ImagesHandler silentHumanize fuel [] (.ok [plainImage "" ""]) = none := by
  refine ⟨by decide, fun fuel => ?_⟩
  rw [ImagesHandler_ok]
  have h := chain_empty_id_loop fuel
  simp only [List.map_cons, List.map_nil]
  simp only [h, if_true]

/-- C10 (amended): for every image snapshot whose parent references are acyclic,
the empty reference counting as a reference to the records of empty `ID`, the
recursion `root.add("", nodes)` terminates at every depth bound above the number
of records, and `ImagesHandler` returns. Ids may repeat, be empty, or be
referenced by no record, and references may name absent ids. -/
theorem imagesHandler_terminates (hz : Humanize) (w : ResponseWriter) (images : List Image)
    (hacyc : AcyclicRefs images = true) (fuel : Nat) (hfuel : images.length < fuel) :
    ∃ r, ImagesHandler hz fuel w (.ok images) = some r ∧ r.w = w ∧ r.err = none ∧
      ∃ t, r.value = some t := by
  rw [ImagesHandler_ok]
  have hc : chain (images.map Image.link) fuel "" = false := by
    by_contra hne
    have ht : chain (images.map Image.link) fuel "" = true := by simpa using hne
    have h2 := chain_of_le hfuel ht
    rw [AcyclicRefs.chain_succ_false hacyc] at h2
    exact Bool.false_ne_true h2
  rw [hc]
  exact ⟨_, rfl, rfl, rfl, _, rfl⟩

theorem imagesHandler_terminates_witness :
    AcyclicRefs [plainImage "A" "", plainImage "A" "", plainImage "B" "A",
      plainImage "C" "X", plainImage "" "Y"] = true ∧
    ∃ r, ImagesHandler silentHumanize 6 []
        (.ok [plainImage "A" "", plainImage "A" "", plainImage "B" "A",
          plainImage "C" "X", plainImage "" "Y"]) = some r ∧ r.w = [] ∧ r.err = none ∧
      ∃ t, r.value = some t :=
  ⟨by decide,
    imagesHandler_terminates silentHumanize []
      [plainImage "A" "", plainImage "A" "", plainImage "B" "A",
        plainImage "C" "X", plainImage "" "Y"] (by decide) 6 (by decide)⟩

/-! ### Exclusive ownership -/

theorem Walk.trans {links : List Link} {j k : Nat} {a b c : String}
    (h1 : Walk links j a b) (h2 : Walk links k b c) : Walk links (j + k) a c := by
  induction j generalizing a with
  | zero =>
    simp only [Walk] at h1
    subst h1
    simpa using h2
  | succ j ih =>
    obtain ⟨d, hd, hp, hk⟩ := h1
    have : j + 1 + k = (j + k) + 1 := by omega
    rw [this]
    exact ⟨d, hd, hp, ih hk⟩

theorem Walk.split {links : List Link} {j k : Nat} {a c : String}
    (h : Walk links (j + k) a c) : ∃ b, Walk links j a b ∧ Walk links k b c := by
  induction j generalizing a with
  | zero => exact ⟨a, rfl, by simpa using h⟩
  | succ j ih =>
    have e : j + 1 + k = (j + k) + 1 := by omega
    rw [e] at h
    obtain ⟨d, hd, hp, hk⟩ := h
    obtain ⟨b, hb1, hb2⟩ := ih hk
    exact ⟨b, ⟨d, hd, hp, hb1⟩, hb2⟩

/-- With distinct ids, walks of equal length that end at the same reference start
at the same reference. -/
theorem Walk.start_unique {links : List Link} (hU : (links.map Link.ID).Nodup)
    {d : Nat} {a a' b : String} (h1 : Walk links d a b) (h2 : Walk links d a' b) : a = a' := by
  induction d generalizing b with
  | zero =>
    simp only [Walk] at h1 h2
    rw [h1, h2]
  | succ d ih =>
    obtain ⟨m, hm, hid, hw⟩ := Walk.last h1
    obtain ⟨m', hm', hid', hw'⟩ := Walk.last h2
    have hmm : m = m' := List.inj_on_of_nodup_map hU hm hm' (hid.trans hid'.symm)
    subst hmm
    exact ih hw hw'

theorem Walk.iterate {links : List Link} {e : Nat} {q : String} (h : Walk links e q q)
    (j : Nat) : Walk links (e * j) q q := by
  induction j with
  | zero => rfl
  | succ j ih =>
    have : e * (j + 1) = e * j + e := by ring
    rw [this]
    exact Walk.trans ih h

/-- No walk returns to its start when no chain is longer than `N`. -/
theorem Walk.no_cycle {links : List Link} {N : Nat}
    (hA : ∀ id, chain links (N + 1) id = false) {e : Nat} {q : String}
    (h : Walk links (e + 1) q q) : False := by
  have hw := Walk.iterate h (N + 1)
  have hc : chain links ((e + 1) * (N + 1)) q = true := (chain_iff_walk _ _ _).2 ⟨_, hw⟩
  have hle : N + 1 ≤ (e + 1) * (N + 1) := Nat.le_mul_of_pos_left _ (Nat.succ_pos e)
  have h2 := chain_of_le hle hc
  rw [hA q] at h2
  exact Bool.false_ne_true h2

/-- With distinct ids and no cycle, two walks between the same references have the
same length. -/
theorem Walk.length_unique {links : List Link} (hU : (links.map Link.ID).Nodup) {N : Nat}
    (hA : ∀ id, chain links (N + 1) id = false) {d d' : Nat} {q b : String}
    (h1 : Walk links d q b) (h2 : Walk links d' q b) : d = d' := by
  have key : ∀ {d d' : Nat}, d < d' → Walk links d q b → Walk links d' q b → False := by
    intro d d' hlt h1 h2
    obtain ⟨e, rfl⟩ : ∃ e, d' = (e + 1) + d := ⟨d' - d - 1, by omega⟩
    obtain ⟨mid, hm1, hm2⟩ := Walk.split h2
    have hmid : mid = q := Walk.start_unique hU hm2 h1
    subst hmid
    exact Walk.no_cycle hA hm1
  rcases Nat.lt_trichotomy d d' with hlt | heq | hgt
  · exact (key hlt h1 h2).elim
  · exact heq
  · exact (key hgt h2 h1).elim

/-- When no walk returns to its start, a walk visits each id at most once, so it
is no longer than the snapshot. -/
theorem Walk.length_le {links : List Link} (hno : ∀ q e, ¬ Walk links (e + 1) q q)
    {k : Nat} {a b : String} (visited : List String) (hnd : visited.Nodup)
    (hsub : ∀ v ∈ visited, v ∈ links.map Link.ID)
    (hreach : ∀ v ∈ visited, ∃ j, Walk links j v a) (hw : Walk links k a b) :
    visited.length + k ≤ links.length := by
  induction k generalizing a visited with
  | zero =>
    have := (List.subperm_of_subset hnd hsub).length_le
    simpa using this
  | succ k ih =>
    obtain ⟨c, hc, hpar, hk⟩ := hw
    have hstep : ∀ {j v}, Walk links j v a → Walk links (j + 1) v c.ID := by
      intro j v hv
      exact Walk.snoc (hpar ▸ hv) hc
    have hnew : c.ID ∉ visited := by
      intro hmem
      obtain ⟨j, hj⟩ := hreach _ hmem
      exact hno _ _ (hstep hj)
    have := ih (c.ID :: visited) (List.nodup_cons.2 ⟨hnew, hnd⟩)
      (by
        intro v hv
        rcases List.mem_cons.1 hv with h | h
        · exact h ▸ List.mem_map.2 ⟨c, hc, rfl⟩
        · exact hsub v h)
      (by
        intro v hv
        rcases List.mem_cons.1 hv with h | h
        · exact ⟨0, h⟩
        · obtain ⟨j, hj⟩ := hreach v h
          exact ⟨j + 1, hstep hj⟩)
      hk
    simp only [List.length_cons] at this
    omega

/-- The snapshots `AcyclicRefs` accepts are exactly those in which no walk along
parent references returns to the id it started from. -/
theorem acyclicRefs_iff (images : List Image) :
    AcyclicRefs images = true ↔ ∀ q e, ¬ Walk (images.map Image.link) (e + 1) q q := by
  constructor
  · intro h q e hw
    exact Walk.no_cycle (AcyclicRefs.chain_succ_false h) hw
  · intro hno
    simp only [AcyclicRefs, List.all_eq_true, Bool.not_eq_true']
    intro r hr
    by_contra hc
    have ht : climb (images.map Image.link) images.length r.ParentID = true := by
      simpa using hc
    obtain ⟨a, hw⟩ := (climb_iff_walk _ _ _).1 ht
    have hw1 := Walk.snoc hw hr
    have := Walk.length_le hno [] List.nodup_nil (by simp) (by simp) hw1
    simp only [List.length_nil, List.length_map] at this
    omega

/-- Every appended node hangs below `parent`: a walk leads from `parent` down to
the node's own parent reference. -/
theorem appends_walk {nodes : List ImageNode} {k : Nat} {node : Ptr} {parent : String}
    {e : Ptr × Nat} (he : e ∈ appends nodes k node parent) :
    ∃ n, nodes[e.2]? = some n ∧ ∃ d, Walk (nodes.map ImageNode.link) d parent n.ParentID := by
  induction k generalizing node parent with
  | zero => simp [appends] at he
  | succ k ih =>
    obtain ⟨p, hp, hpar, h | h⟩ := mem_appends_succ.1 he
    · refine ⟨p.2, ?_, 0, hpar.symm⟩
      rw [h]; exact List.mem_enum_iff_getElem?.1 hp
    · obtain ⟨n, hn, d, hw⟩ := ih h
      refine ⟨n, hn, d + 1, p.2.link, ?_, hpar, hw⟩
      exact List.mem_map.2 ⟨p.2, List.getElem?_mem (List.mem_enum_iff_getElem?.1 hp), rfl⟩

theorem links_ID (nodes : List ImageNode) :
    (nodes.map ImageNode.link).map Link.ID = nodes.map ImageNode.ID := by
  simp [List.map_map, Function.comp_def, ImageNode.link]

theorem index_unique {nodes : List ImageNode} (hU : (nodes.map ImageNode.ID).Nodup)
    {i j : Nat} {a b : ImageNode} (hi : nodes[i]? = some a) (hj : nodes[j]? = some b)
    (hid : a.ID = b.ID) : i = j := by
  have hlt : i < (nodes.map ImageNode.ID).length := by
    rw [List.length_map]
    exact (List.getElem?_eq_some_iff.1 hi).1
  apply List.getElem?_inj hlt hU
  simp [List.getElem?_map, hi, hj, hid]

/-- With distinct ids and no cycle, `add` appends every node at most once. -/
theorem appends_nodup {nodes : List ImageNode} (hU : (nodes.map ImageNode.ID).Nodup) {N : Nat}
    (hA : ∀ id, chain (nodes.map ImageNode.link) (N + 1) id = false)
    (k : Nat) (node : Ptr) (parent : String) :
    ((appends nodes k node parent).map Prod.snd).Nodup := by
  have hUl : ((nodes.map ImageNode.link).map Link.ID).Nodup := by rw [links_ID]; exact hU
  induction k generalizing node parent with
  | zero => simp [appends]
  | succ k ih =>
    simp only [appends, List.map_flatMap]
    rw [List.nodup_flatMap]
    constructor
    · intro p hp
      by_cases hpar : p.2.ParentID = parent
      · simp only [hpar, if_true, List.map_cons, List.nodup_cons]
        refine ⟨?_, ih _ _⟩
        intro hmem
        obtain ⟨e, he, hsnd⟩ := List.mem_map.1 hmem
        obtain ⟨n, hn, d, hw⟩ := appends_walk he
        have hpn : nodes[p.1]? = some p.2 := List.mem_enum_iff_getElem?.1 hp
        rw [hsnd, hpn] at hn
        cases hn
        have hcyc : Walk (nodes.map ImageNode.link) (d + 1) p.2.ParentID p.2.ParentID :=
          ⟨p.2.link, List.mem_map.2 ⟨p.2, List.getElem?_mem hpn, rfl⟩, rfl, hw⟩
        exact Walk.no_cycle hA hcyc
      · simp [hpar]
    · have hnd : nodes.enum.Nodup := by
        apply List.Nodup.of_map Prod.fst
        rw [List.enum_map_fst]
        exact List.nodup_range _
      apply hnd.pairwise_of_forall_ne
      intro p hp p' hp' hne
      have hpn : nodes[p.1]? = some p.2 := List.mem_enum_iff_getElem?.1 hp
      have hpn' : nodes[p'.1]? = some p'.2 := List.mem_enum_iff_getElem?.1 hp'
      have hidx : p.1 ≠ p'.1 := by
        intro h
        apply hne
        have h2 : some p.2 = some p'.2 := by rw [← hpn, ← hpn', h]
        exact Prod.ext h (Option.some.inj h2)
      simp only [Function.onFun]
      by_cases hpar : p.2.ParentID = parent
      · by_cases hpar' : p'.2.ParentID = parent
        · simp only [hpar, hpar', if_true, List.map_cons]
          have hml : p.2.link ∈ nodes.map ImageNode.link :=
            List.mem_map.2 ⟨p.2, List.getElem?_mem hpn, rfl⟩
          have hml' : p'.2.link ∈ nodes.map ImageNode.link :=
            List.mem_map.2 ⟨p'.2, List.getElem?_mem hpn', rfl⟩
          rw [List.disjoint_left]
          intro x hx hx'
          rcases List.mem_cons.1 hx with hx | hx <;> rcases List.mem_cons.1 hx' with hx' | hx'
          · exact hidx (hx.symm.trans hx')
          · obtain ⟨e, he, hsnd⟩ := List.mem_map.1 hx'
            obtain ⟨n, hn, d, hw⟩ := appends_walk he
            rw [hsnd, hx, hpn] at hn
            cases hn
            have hcyc : Walk (nodes.map ImageNode.link) (d + 1) parent p.2.ParentID :=
              ⟨p'.2.link, hml', hpar', hw⟩
            rw [hpar] at hcyc
            exact Walk.no_cycle hA hcyc
          · obtain ⟨e, he, hsnd⟩ := List.mem_map.1 hx
            obtain ⟨n, hn, d, hw⟩ := appends_walk he
            rw [hsnd, hx', hpn'] at hn
            cases hn
            have hcyc : Walk (nodes.map ImageNode.link) (d + 1) parent p'.2.ParentID :=
              ⟨p.2.link, hml, hpar, hw⟩
            rw [hpar'] at hcyc
            exact Walk.no_cycle hA hcyc
          · obtain ⟨e, he, hsnd⟩ := List.mem_map.1 hx
            obtain ⟨n, hn, d, hw⟩ := appends_walk he
            obtain ⟨e', he', hsnd'⟩ := List.mem_map.1 hx'
            obtain ⟨n', hn', d', hw'⟩ := appends_walk he'
            rw [hsnd] at hn
            rw [hsnd', hn] at hn'
            cases hn'
            have h1 : Walk (nodes.map ImageNode.link) (d + 1) parent n.ParentID :=
              ⟨p.2.link, hml, hpar, hw⟩
            have h2 : Walk (nodes.map ImageNode.link) (d' + 1) parent n.ParentID :=
              ⟨p'.2.link, hml', hpar', hw'⟩
            have hdd : d = d' := by
              have := Walk.length_unique hUl hA h1 h2
              omega
            subst hdd
            have hids : p.2.ID = p'.2.ID := Walk.start_unique hUl hw hw'
            exact hidx (index_unique hU hpn hpn' hids)
        · simp [hpar']
      · simp [hpar]

theorem imageNodes_ID (hz : Humanize) (images : List Image) :
    (imageNodes hz images).map ImageNode.ID = images.map Image.ID := by
  simp [imageNodes, List.map_map, Function.comp_def, newImageNode]

theorem AcyclicRefs.nodes_chain_false {images : List Image} (h : AcyclicRefs images = true)
    (hz : Humanize) (id : String) :
    chain ((imageNodes hz images).map ImageNode.link) (images.length + 1) id = false := by
  rw [imageNodes_link]; exact AcyclicRefs.chain_succ_false h id

/-- C3, as stated, fails: in the snapshot `[{A,""},{A,""},{B,A}]` the record `B`
is held by both records of id `A`, not by the first one only. -/
theorem imagesHandler_shares_child :
    ∃ r t, ImagesHandler silentHumanize 4 []
        (.ok [plainImage "A" "", plainImage "A" "", plainImage "B" "A"]) = some r ∧
      r.value = some t ∧ t.children none = [0, 1] ∧ t.children (some 0) = [2] ∧
      t.children (some 1) = [2] ∧ ¬ t.Exclusive := by
  refine ⟨_, _, rfl, rfl, by decide, by decide, by decide, fun h => ?_⟩
  have h01 := h.1 (some 0) (some 1) 2 (by decide) (by decide)
  exact absurd h01 (by decide)

/-- C3 (amended): when the ids of the records are pairwise distinct and the parent
references acyclic, `ImagesHandler` returns a tree, and in every tree it returns
children ownership is exclusive: a record that is attached appears in the
`Children` slice of exactly one node, and exactly once. -/
theorem imagesHandler_exclusive (hz : Humanize) (w : ResponseWriter) (images : List Image)
    (hU : (images.map Image.ID).Nodup) (hacyc : AcyclicRefs images = true) :
    (∃ r, ImagesHandler hz (images.length + 1) w (.ok images) = some r) ∧
    ∀ fuel r, ImagesHandler hz fuel w (.ok images) = some r →
      ∃ t, r.value = some t ∧ t.Exclusive := by
  constructor
  · rw [ImagesHandler_ok, AcyclicRefs.chain_succ_false hacyc]
    exact ⟨_, rfl⟩
  · intro fuel r hr
    rw [ImagesHandler_ok] at hr
    by_cases hc : chain (images.map Image.link) fuel "" = true
    · simp [hc] at hr
    · simp only [hc, Bool.false_eq_true, if_false, Option.some.injEq] at hr
      subst hr
      have hUn : ((imageNodes hz images).map ImageNode.ID).Nodup := by
        rw [imageNodes_ID]; exact hU
      have hnd := appends_nodup hUn (AcyclicRefs.nodes_chain_false hacyc hz) fuel none ""
      refine ⟨_, rfl, ?_, ?_⟩
      · intro p q c hp hq
        simp only [Heap.appendAll_apply, Heap.empty, List.nil_append, List.mem_map,
          List.mem_filter, decide_eq_true_eq] at hp hq
        obtain ⟨e, ⟨he, hep⟩, hec⟩ := hp
        obtain ⟨e', ⟨he', hep'⟩, hec'⟩ := hq
        have hee : e = e' := List.inj_on_of_nodup_map hnd he he' (hec.trans hec'.symm)
        rw [← hep, ← hep', hee]
      · intro p
        simp only [Heap.appendAll_apply, Heap.empty, List.nil_append]
        exact List.Nodup.sublist (List.Sublist.map _ (List.filter_sublist _)) hnd

theorem imagesHandler_exclusive_witness :
    ([plainImage "A" "", plainImage "B" "A", plainImage "C" "A",
        plainImage "D" "B"].map Image.ID).Nodup ∧
    AcyclicRefs [plainImage "A" "", plainImage "B" "A", plainImage "C" "A",
        plainImage "D" "B"] = true ∧
    ((∃ r, ImagesHandler silentHumanize 5 []
        (.ok [plainImage "A" "", plainImage "B" "A", plainImage "C" "A",
          plainImage "D" "B"]) = some r) ∧
    ∀ fuel r, ImagesHandler silentHumanize fuel []
        (.ok [plainImage "A" "", plainImage "B" "A", plainImage "C" "A",
          plainImage "D" "B"]) = some r →
      ∃ t, r.value = some t ∧ t.Exclusive) :=
  ⟨by decide, by decide,
    imagesHandler_exclusive silentHumanize []
      [plainImage "A" "", plainImage "B" "A", plainImage "C" "A", plainImage "D" "B"]
      (by decide) (by decide)⟩

/-! ### Reachable nodes -/

/-- A node that `add` has attached receives every record that names it as parent. -/
theorem appends_children {nodes : List ImageNode} {k : Nat} {node : Ptr} {parent : String}
    (hc : chain (nodes.map ImageNode.link) k parent = false) {p : Ptr} {m : Nat}
    (hm : (p, m) ∈ appends nodes k node parent) {nm : ImageNode} (hnm : nodes[m]? = some nm)
    {c : Nat} {nc : ImageNode} (hnc : nodes[c]? = some nc) (hpar : nc.ParentID = nm.ID) :
    (some m, c) ∈ appends nodes k node parent := by
  induction k generalizing node parent with
  | zero => simp [appends] at hm
  | succ k ih =>
    obtain ⟨x, hx, hxpar, h | h⟩ := mem_appends_succ.1 hm
    · have hxn : nodes[x.1]? = some x.2 := List.mem_enum_iff_getElem?.1 hx
      have hck : chain (nodes.map ImageNode.link) k x.2.ID = false := by
        rw [chain_succ_enum] at hc
        have := List.any_eq_false.1 hc x hx
        simpa [hxpar] using this
      have hmx : m = x.1 := congrArg Prod.snd h
      subst hmx
      rw [hxn] at hnm
      cases hnm
      refine mem_appends_succ.2 ⟨x, hx, hxpar, Or.inr ?_⟩
      cases k with
      | zero => simp [chain] at hck
      | succ k =>
        exact mem_appends_succ.2
          ⟨(c, nc), List.mem_enum_iff_getElem?.2 hnc, hpar, Or.inl rfl⟩
    · have hck : chain (nodes.map ImageNode.link) k x.2.ID = false := by
        rw [chain_succ_enum] at hc
        have := List.any_eq_false.1 hc x hx
        simpa [hxpar] using this
      exact mem_appends_succ.2 ⟨x, hx, hxpar, Or.inr (ih hck h)⟩

/-- With every parent present, a record from which fewer than `k` references can
be followed upwards lies at a depth below `k`. -/
theorem depth_of_climb_false {nodes : List ImageNode}
    (hP : ∀ r ∈ nodes, r.ParentID = "" ∨ ∃ m ∈ nodes, m.ID = r.ParentID)
    {k : Nat} {c : Nat} {n : ImageNode} (hn : nodes[c]? = some n)
    (hcl : climb (nodes.map ImageNode.link) k n.ParentID = false) :
    ∃ d, d < k ∧ Depth nodes d c := by
  induction k generalizing c n with
  | zero => simp [climb] at hcl
  | succ k ih =>
    rcases hP n (List.getElem?_mem hn) with h0 | ⟨nm, hnm, hid⟩
    · exact ⟨0, Nat.succ_pos k, n, hn, h0⟩
    · obtain ⟨m, hm⟩ := List.mem_iff_getElem?.1 hnm
      have hclm : climb (nodes.map ImageNode.link) k nm.ParentID = false := by
        simp only [climb] at hcl
        have := List.any_eq_false.1 hcl nm.link (List.mem_map.2 ⟨nm, hnm, rfl⟩)
        simpa [ImageNode.link, hid] using this
      obtain ⟨d, hd, hdep⟩ := ih hm hclm
      exact ⟨d + 1, Nat.succ_lt_succ hd, n, hn, m, nm, hm, hid, hdep⟩

theorem ImageTree.layer_held (t : ImageTree) {k c : Nat} (h : c ∈ t.layer k) :
    ∃ p, c ∈ t.children p := by
  cases k with
  | zero => exact ⟨none, h⟩
  | succ k =>
    simp only [ImageTree.layer, List.mem_flatMap] at h
    obtain ⟨i, _, hi⟩ := h
    exact ⟨some i, hi⟩

/-- The tree a successful run of `add` from the root leaves behind. -/
theorem builtTree_children (nodes : List ImageNode) (fuel : Nat) (p : Ptr) (c : Nat) :
    c ∈ (Heap.empty.appendAll (appends nodes fuel none "")) p
      ↔ (p, c) ∈ appends nodes fuel none "" := by
  simp only [Heap.appendAll_apply, Heap.empty, List.nil_append, List.mem_map, List.mem_filter,
    decide_eq_true_eq]
  constructor
  · rintro ⟨e, ⟨he, hep⟩, hec⟩
    have : e = (p, c) := Prod.ext hep hec
    exact this ▸ he
  · intro h
    exact ⟨(p, c), ⟨h, rfl⟩, rfl⟩

theorem builtTree_layer {nodes : List ImageNode} {fuel : Nat}
    (hc : chain (nodes.map ImageNode.link) fuel "" = false) {d c : Nat}
    (hd : Depth nodes d c) :
    c ∈ ImageTree.layer
      { nodes := nodes, children := Heap.empty.appendAll (appends nodes fuel none "") } d := by
  induction d generalizing c with
  | zero =>
    obtain ⟨n, hn, hpar⟩ := hd
    simp only [ImageTree.layer]
    rw [builtTree_children]
    cases fuel with
    | zero => simp [chain] at hc
    | succ k =>
      exact mem_appends_succ.2 ⟨(c, n), List.mem_enum_iff_getElem?.2 hn, hpar, Or.inl rfl⟩
  | succ d ih =>
    obtain ⟨n, hn, m, nm, hm, hid, hdm⟩ := hd
    have hml := ih hdm
    obtain ⟨p, hp⟩ := ImageTree.layer_held _ hml
    simp only at hp
    rw [builtTree_children] at hp
    have hmc := appends_children hc hp hm hn hid.symm
    simp only [ImageTree.layer, List.mem_flatMap]
    exact ⟨m, hml, (builtTree_children _ _ _ _).2 hmc⟩

theorem builtTree_layer_lt {nodes : List ImageNode} {fuel : Nat} {d c : Nat}
    (h : c ∈ ImageTree.layer
      { nodes := nodes, children := Heap.empty.appendAll (appends nodes fuel none "") } d) :
    c < nodes.length := by
  obtain ⟨p, hp⟩ := ImageTree.layer_held _ h
  simp only at hp
  rw [builtTree_children] at hp
  have hroot : idOf nodes none = some "" := rfl
  obtain ⟨n, hn, _⟩ := appends_parent hroot hp
  exact (List.getElem?_eq_some_iff.1 hn).1

theorem ParentsPresent.nodes {images : List Image} (h : ParentsPresent images = true)
    (hz : Humanize) :
    ∀ r ∈ imageNodes hz images, r.ParentID = "" ∨ ∃ m ∈ imageNodes hz images,
      m.ID = r.ParentID := by
  intro r hr
  simp only [ParentsPresent, List.all_eq_true, Bool.or_eq_true, decide_eq_true_eq,
    List.any_eq_true] at h
  have hrl : r.link ∈ images.map Image.link := by
    rw [← imageNodes_link hz]; exact List.mem_map.2 ⟨r, hr, rfl⟩
  rcases h r.link hrl with h0 | ⟨m, hm, hid⟩
  · exact Or.inl h0
  · right
    rw [← imageNodes_link hz] at hm
    obtain ⟨nm, hnm, rfl⟩ := List.mem_map.1 hm
    exact ⟨nm, hnm, hid⟩

/-- C2, as stated, fails: a record whose `ParentID` names an id absent from the
snapshot is attached nowhere, so the tree for the one-record snapshot `[{B,X}]`
has no node below the root. -/
theorem imagesHandler_drops_orphan :
    ∃ r t, ImagesHandler silentHumanize 2 [] (.ok [plainImage "B" "X"]) = some r ∧
      r.value = some t ∧ t.children none = [] ∧ t.reachableCount = 0 ∧
      t.reachableCount ≠ [plainImage "B" "X"].length := by
  refine ⟨_, _, rfl, rfl, by decide, by decide, by decide⟩

/-- C2 (amended): for every image snapshot whose parent references are acyclic and
in which every non-empty `ParentID` is the id of some record (ids may repeat),
`ImagesHandler` returns a tree, and in every tree it returns the number of
distinct nodes reachable from the root through `Children` slices, the root not
counted, equals the number of input records. -/
theorem imagesHandler_count (hz : Humanize) (w : ResponseWriter) (images : List Image)
    (hacyc : AcyclicRefs images = true) (hpres : ParentsPresent images = true) :
    (∃ r, ImagesHandler hz (images.length + 1) w (.ok images) = some r) ∧
    ∀ fuel r, ImagesHandler hz fuel w (.ok images) = some r →
      ∃ t, r.value = some t ∧ t.reachableCount = images.length := by
  constructor
  · rw [ImagesHandler_ok, AcyclicRefs.chain_succ_false hacyc]
    exact ⟨_, rfl⟩
  · intro fuel r hr
    rw [ImagesHandler_ok] at hr
    by_cases hc : chain (images.map Image.link) fuel "" = true
    · simp [hc] at hr
    · simp only [hc, Bool.false_eq_true, if_false, Option.some.injEq] at hr
      subst hr
      refine ⟨_, rfl, ?_⟩
      have hcf : chain ((imageNodes hz images).map ImageNode.link) fuel "" = false := by
        rw [imageNodes_link]; simpa using hc
      have hperm : List.Perm
          (ImageTree.reachable
            { nodes := imageNodes hz images
              children := Heap.empty.appendAll (appends (imageNodes hz images) fuel none "") })
          (List.range images.length) := by
        unfold ImageTree.reachable
        rw [List.perm_ext_iff_of_nodup (List.nodup_dedup _) (List.nodup_range _)]
        intro c
        simp only [List.mem_dedup, List.mem_flatMap, List.mem_range, imageNodes_length]
        constructor
        · rintro ⟨d, _, hd⟩
          have := builtTree_layer_lt hd
          rwa [imageNodes_length] at this
        · intro hlt
          have hlt2 : c < (imageNodes hz images).length := by rwa [imageNodes_length]
          obtain ⟨n, hn⟩ : ∃ n, (imageNodes hz images)[c]? = some n :=
            ⟨_, List.getElem?_eq_getElem hlt2⟩
          have hcl : climb ((imageNodes hz images).map ImageNode.link) images.length
              n.ParentID = false := by
            rw [imageNodes_link]
            have hrl : n.link ∈ images.map Image.link := by
              rw [← imageNodes_link hz]
              exact List.mem_map.2 ⟨n, List.getElem?_mem hn, rfl⟩
            exact AcyclicRefs.climb_false hacyc hrl
          obtain ⟨d, hd, hdep⟩ := depth_of_climb_false (ParentsPresent.nodes hpres hz) hn hcl
          exact ⟨d, hd, builtTree_layer hcf hdep⟩
      simp only [ImageTree.reachableCount]
      rw [hperm.length_eq, List.length_range]

theorem imagesHandler_count_witness :
    AcyclicRefs [plainImage "A" "", plainImage "A" "", plainImage "B" "A"] = true ∧
    ParentsPresent [plainImage "A" "", plainImage "A" "", plainImage "B" "A"] = true ∧
    ((∃ r, ImagesHandler silentHumanize 4 []
        (.ok [plainImage "A" "", plainImage "A" "", plainImage "B" "A"]) = some r) ∧
    ∀ fuel r, ImagesHandler silentHumanize fuel []
        (.ok [plainImage "A" "", plainImage "A" "", plainImage "B" "A"]) = some r →
      ∃ t, r.value = some t ∧
        t.reachableCount
          = [plainImage "A" "", plainImage "A" "", plainImage "B" "A"].length) :=
  ⟨by decide, by decide,
    imagesHandler_count silentHumanize []
      [plainImage "A" "", plainImage "A" "", plainImage "B" "A"] (by decide) (by decide)⟩

/-! ### Resource graph -/

theorem climb_succ_nodes (nodes : List ImageNode) (k : Nat) (id : String) :
    climb (nodes.map ImageNode.link) (k + 1) id
      = nodes.any fun n =>
          decide (n.ID = id) && climb (nodes.map ImageNode.link) k n.ParentID := by
  simp only [climb]
  generalize climb (nodes.map ImageNode.link) k = g
  induction nodes with
  | nil => rfl
  | cons n l ih => simp only [List.map_cons, List.any_cons, ih, ImageNode.link]

/-- Exact behaviour of `imageList`: it fails precisely when `fuel` references can
be followed upwards from `parent`, and otherwise appends the ids of `lineage`. -/
theorem imageList_eq (nodes : List ImageNode) (fuel : Nat) (out : List String)
    (parent : String) :
    imageList nodes fuel out parent
      = if climb (nodes.map ImageNode.link) fuel parent then none
        else some (out ++ lineage nodes fuel parent) := by
  induction fuel generalizing out parent with
  | zero => simp [imageList, climb]
  | succ k ih =>
    rw [climb_succ_nodes]
    simp only [imageList, lineage]
    generalize hg : climb (nodes.map ImageNode.link) k = g
    have ih2 : ∀ out parent, imageList nodes k out parent
        = if g parent then none else some (out ++ lineage nodes k parent) := by
      intro out parent; rw [ih, hg]
    clear ih hg
    have aux : ∀ (l : List ImageNode) (out : List String),
        l.foldlM
            (fun out n =>
              if n.ID = parent then imageList nodes k (out ++ [n.ID]) n.ParentID
              else some out)
            out
          = if (l.any fun n => decide (n.ID = parent) && g n.ParentID) then none
            else some (out ++ l.flatMap fun n =>
              if n.ID = parent then n.ID :: lineage nodes k n.ParentID else []) := by
      intro l
      induction l with
      | nil => intro out; simp
      | cons n l ihl =>
        intro out
        simp only [List.foldlM_cons, List.any_cons, List.flatMap_cons]
        by_cases hn : n.ID = parent
        · simp only [hn, if_true, decide_True, Bool.true_and]
          rw [ih2]
          by_cases hc : g n.ParentID = true
          · simp [hc]
          · simp only [hc, Bool.false_eq_true, if_false, Bool.false_or]
            simp only [Option.some_bind, Option.bind_eq_bind]
            rw [ihl]
            simp [List.append_assoc]
        · simp only [hn, if_false, decide_False, Bool.false_and, Bool.false_or,
            List.nil_append]
          simp only [Option.some_bind, Option.bind_eq_bind]
          rw [ihl]
    exact aux nodes out

theorem graphImageNode_link (images : List Image) :
    (images.map graphImageNode).map ImageNode.link = images.map Image.link := by
  simp [List.map_map, Function.comp_def, ImageNode.link, Image.link, graphImageNode]

/-- The loop over a run of containers whose inspections succeed. -/
theorem containerLoop_append (dc : Engine) (inodes : List ImageNode) (fuel : Nat)
    (w : ResponseWriter) {cs : List Container} {cis : List ContainerJSON}
    (h : List.Forall₂ (fun c ci => dc.ContainerInspect c.ID = .ok ci) cs cis)
    (rest : List Container) (nodes : List GraphNode) (inspected : List String) :
    containerLoop dc inodes fuel w (cs ++ rest) nodes inspected
      = if (cis.any fun ci => climb (inodes.map ImageNode.link) fuel ci.Image) then none
        else containerLoop dc inodes fuel w rest
          (nodes ++ List.zipWith containerGraphNode cs cis)
          (inspected ++ cs.map Container.ID) := by
  induction h generalizing nodes inspected with
  | nil => simp
  | @cons c ci cs cis hc _ ih =>
    show containerLoop dc inodes fuel w (c :: (cs ++ rest)) nodes inspected = _
    rw [containerLoop]
    simp only [hc, imageList_eq, List.any_cons, List.zipWith_cons_cons, List.map_cons]
    by_cases hcl : climb (inodes.map ImageNode.link) fuel ci.Image = true
    · simp [hcl]
    · simp only [hcl, Bool.false_eq_true, if_false, Bool.false_or]
      rw [ih]
      simp [List.append_assoc]

theorem ContainerGraphHandler_listed {dc : Engine} {containers : List Container}
    {images : List Image} (hcl : dc.ContainerList = .ok containers)
    (hil : dc.ImageList = .ok images) (fuel : Nat) (w : ResponseWriter) :
    ContainerGraphHandler dc fuel w
      = match containerLoop dc (images.map graphImageNode) fuel w containers [] [] with
        | none => none
        | some (.returned run) => some run
        | some (.done nodes inspected) =>
          some
            { reply :=
                { w := w, value := some (nodes ++ images.map imageGraphNode), err := none }
              inspected := inspected } := by
  simp only [ContainerGraphHandler, hcl, hil]

theorem lineageEnds_fuel {images : List Image} {id : String}
    (h : LineageEnds images id = true) :
    climb ((images.map graphImageNode).map ImageNode.link) (images.length + 1) id = false := by
  rw [graphImageNode_link]
  simpa [LineageEnds] using h

/-- In an acyclic snapshot the lineage of every id ends. -/
theorem AcyclicRefs.lineageEnds {images : List Image} (h : AcyclicRefs images = true)
    (id : String) : LineageEnds images id = true := by
  simp only [LineageEnds, climb, Bool.not_eq_true', List.any_eq_false, Bool.and_eq_true,
    decide_eq_true_eq, not_and, Bool.not_eq_true]
  intro m hm _
  exact AcyclicRefs.climb_false h hm

/-- C4, as stated, fails: with one container running image `x` and an image `x`
that is its own parent, both listings and the inspection succeed, yet the call
of `imageList` recurses beyond every depth and the handler never returns. -/
theorem containerGraphHandler_loops :
    selfParentEngine.ContainerList = .ok [{ ID := "c1", Names := ["/c1"] }] ∧
    selfParentEngine.ImageList = .ok [plainImage "x" "x"] ∧
    selfParentEngine.ContainerInspect "c1" = .ok { Image := "x" } ∧
    ¬ ∃ fuel run, ContainerGraphHandler selfParentEngine fuel [] = some run := by
  refine ⟨rfl, rfl, rfl, ?_⟩
  rintro ⟨fuel, run, h⟩
  have hclimb : ∀ k, climb [(plainImage "x" "x").link] k "x" = true := by
    intro k
    induction k with
    | zero => rfl
    | succ k ih =>
      simp only [climb, List.any_cons, List.any_nil, Bool.or_false, Bool.and_eq_true,
        decide_eq_true_eq]
      exact ⟨rfl, ih⟩
  have hl : imageList ([plainImage "x" "x"].map graphImageNode) fuel [] "x" = none := by
    rw [imageList_eq, graphImageNode_link]
    simp only [List.map_cons, List.map_nil, hclimb fuel, if_true]
  simp only [ContainerGraphHandler, selfParentEngine, containerLoop, hl] at h
  exact Option.noConfusion h

/-- C4 (amended): when both listings and every per-container inspection succeed
and following `ParentID` upwards from each container's image comes to an end,
`ContainerGraphHandler` returns, and it returns exactly: for each container in
snapshot order the node `{c.ID, "container", c.Names, [image of its inspection]}`,
followed by, for each image in snapshot order, `{i.ID, "image", i.RepoTags,
[i.ParentID]}`; the output length is container count plus image count, and each
container is inspected once, in order. -/
theorem containerGraphHandler_ok (dc : Engine) (w : ResponseWriter)
    (containers : List Container) (images : List Image) (cis : List ContainerJSON)
    (hcl : dc.ContainerList = .ok containers) (hil : dc.ImageList = .ok images)
    (hins : List.Forall₂ (fun c ci => dc.ContainerInspect c.ID = .ok ci) containers cis)
    (hends : ∀ ci ∈ cis, LineageEnds images ci.Image = true) :
    (∃ run, ContainerGraphHandler dc (images.length + 1) w = some run) ∧
    ∀ fuel run, ContainerGraphHandler dc fuel w = some run →
      run.reply.w = w ∧ run.reply.err = none ∧
      run.reply.value
        = some (List.zipWith containerGraphNode containers cis ++ images.map imageGraphNode) ∧
      (List.zipWith containerGraphNode containers cis ++ images.map imageGraphNode).length
        = containers.length + images.length ∧
      run.inspected = containers.map Container.ID := by
  have hloop := fun fuel =>
    containerLoop_append dc (images.map graphImageNode) fuel w hins [] [] []
  simp only [List.append_nil, List.nil_append, containerLoop] at hloop
  constructor
  · have hany : (cis.any fun ci =>
        climb ((images.map graphImageNode).map ImageNode.link) (images.length + 1) ci.Image)
          = false := by
      rw [List.any_eq_false]
      intro ci hci
      rw [lineageEnds_fuel (hends ci hci)]
      exact Bool.false_ne_true
    rw [ContainerGraphHandler_listed hcl hil, hloop, hany]
    exact ⟨_, rfl⟩
  · intro fuel run hrun
    rw [ContainerGraphHandler_listed hcl hil, hloop] at hrun
    by_cases hany : (cis.any fun ci =>
        climb ((images.map graphImageNode).map ImageNode.link) fuel ci.Image) = true
    · rw [if_pos hany] at hrun
      exact Option.noConfusion hrun
    · rw [if_neg hany] at hrun
      simp only [Option.some.injEq] at hrun
      subst hrun
      refine ⟨rfl, rfl, rfl, ?_, rfl⟩
      simp [List.length_zipWith, hins.length_eq]

theorem containerGraphHandler_ok_witness :
    scenarioEngine.ContainerList = .ok [{ ID := "c1", Names := [] }] ∧
    scenarioEngine.ImageList = .ok [plainImage "img1" ""] ∧
    (ContainerGraphHandler scenarioEngine 2 []).map (fun run => run.reply.value)
      = some (some
          [{ ID := "c1", Type_ := "container", Names := [], Images := ["img1"] },
           { ID := "img1", Type_ := "image", Names := [], Images := [""] }]) ∧
    ((∃ run, ContainerGraphHandler scenarioEngine ([plainImage "img1" ""].length + 1) []
        = some run) ∧
    ∀ fuel run, ContainerGraphHandler scenarioEngine fuel [] = some run →
      run.reply.w = [] ∧ run.reply.err = none ∧
      run.reply.value
        = some (List.zipWith containerGraphNode [{ ID := "c1", Names := [] }]
              [{ Image := "img1" }] ++ [plainImage "img1" ""].map imageGraphNode) ∧
      (List.zipWith containerGraphNode [{ ID := "c1", Names := [] }]
          [{ Image := "img1" }] ++ [plainImage "img1" ""].map imageGraphNode).length
        = [({ ID := "c1", Names := [] } : Container)].length + [plainImage "img1" ""].length ∧
      run.inspected = [({ ID := "c1", Names := [] } : Container)].map Container.ID) :=
  ⟨rfl, rfl, by decide,
    containerGraphHandler_ok scenarioEngine [] [{ ID := "c1", Names := [] }]
      [plainImage "img1" ""] [{ Image := "img1" }] rfl rfl
      (List.Forall₂.cons rfl List.Forall₂.nil) (by decide)⟩

/-- C5, as stated, fails: when the inspection of a container fails, the handler
returns a nil error together with a nil value; the failure is written to the
response as status 400 with the message, and no later container is inspected. -/
theorem containerGraphHandler_returns_nil_error :
    failingInspectEngine.ContainerInspect "c1" = .error "no such container" ∧
    ∃ run, ContainerGraphHandler failingInspectEngine 2 [] = some run ∧
      run.reply.err = none ∧ run.reply.value = none ∧
      run.reply.w = [WriterCall.WriteHeader 400,
        WriterCall.Write "Docker engine endpoint failed: no such container"] ∧
      run.inspected = ["c1"] :=
  ⟨rfl, _, rfl, rfl, rfl, by decide, by decide⟩

/-- C5 (amended): if the inspection fails for a container, the inspections before
it having succeeded, `ContainerGraphHandler` aborts: it writes status 400 and the
message `Docker engine endpoint failed: <error>` to the response and returns a
nil value and a nil error, so no `GraphNode` sequence (neither the nodes built
for earlier containers nor any image node), and no container after the failing
one is inspected. -/
theorem containerGraphHandler_inspect_fails (dc : Engine) (w : ResponseWriter)
    (pre : List Container) (c : Container) (post : List Container) (images : List Image)
    (cis : List ContainerJSON) (err : String)
    (hcl : dc.ContainerList = .ok (pre ++ c :: post)) (hil : dc.ImageList = .ok images)
    (hpre : List.Forall₂ (fun c ci => dc.ContainerInspect c.ID = .ok ci) pre cis)
    (hends : ∀ ci ∈ cis, LineageEnds images ci.Image = true)
    (hfail : dc.ContainerInspect c.ID = .error err) :
    (∃ run, ContainerGraphHandler dc (images.length + 1) w = some run) ∧
    ∀ fuel run, ContainerGraphHandler dc fuel w = some run →
      run.reply.w = engineFailed w err ∧ run.reply.value = none ∧ run.reply.err = none ∧
      run.inspected = pre.map Container.ID ++ [c.ID] := by
  have hloop := fun fuel =>
    containerLoop_append dc (images.map graphImageNode) fuel w hpre (c :: post) [] []
  simp only [List.nil_append, containerLoop, hfail] at hloop
  constructor
  · have hany : (cis.any fun ci =>
        climb ((images.map graphImageNode).map ImageNode.link) (images.length + 1) ci.Image)
          = false := by
      rw [List.any_eq_false]
      intro ci hci
      rw [lineageEnds_fuel (hends ci hci)]
      exact Bool.false_ne_true
    rw [ContainerGraphHandler_listed hcl hil, hloop, hany]
    exact ⟨_, rfl⟩
  · intro fuel run hrun
    rw [ContainerGraphHandler_listed hcl hil, hloop] at hrun
    by_cases hany : (cis.any fun ci =>
        climb ((images.map graphImageNode).map ImageNode.link) fuel ci.Image) = true
    · rw [if_pos hany] at hrun
      exact Option.noConfusion hrun
    · rw [if_neg hany] at hrun
      simp only [Option.some.injEq] at hrun
      subst hrun
      exact ⟨rfl, rfl, rfl, rfl⟩

theorem containerGraphHandler_inspect_fails_witness :
    secondFailsEngine.ContainerList
      = .ok ([{ ID := "c1", Names := ["/c1"] }]
          ++ { ID := "c2", Names := ["/c2"] } :: [{ ID := "c3", Names := ["/c3"] }]) ∧
    secondFailsEngine.ContainerInspect "c2" = .error "no such container" ∧
    ((∃ run, ContainerGraphHandler secondFailsEngine ([plainImage "img1" ""].length + 1) []
        = some run) ∧
    ∀ fuel run, ContainerGraphHandler secondFailsEngine fuel [] = some run →
      run.reply.w = engineFailed [] "no such container" ∧ run.reply.value = none ∧
      run.reply.err = none ∧
      run.inspected
        = [({ ID := "c1", Names := ["/c1"] } : Container)].map Container.ID ++ ["c2"]) :=
  ⟨rfl, rfl,
    containerGraphHandler_inspect_fails secondFailsEngine [] [{ ID := "c1", Names := ["/c1"] }]
      { ID := "c2", Names := ["/c2"] } [{ ID := "c3", Names := ["/c3"] }]
      [plainImage "img1" ""] [{ Image := "img1" }] "no such container" rfl rfl
      (List.Forall₂.cons rfl List.Forall₂.nil) (by decide) rfl⟩

/-! ### Event pipeline -/

section Events

variable {Msg Time Bytes : Type}

/-- No step changes what the pipeline has broadcast or has yet to broadcast. -/
theorem step_outlook (env : EventEnv Msg Time Bytes) {m : Move} {p q : Pipeline Msg Time Bytes}
    (h : EchoEvents.step env m p = some q) : outlook env q = outlook env p := by
  obtain ⟨feed, clock, dec, disp, printed, bc⟩ := p
  cases m with
  | decode =>
    cases dec with
    | reading =>
      cases feed with
      | nil => simp [EchoEvents.step] at h
      | cons d rest =>
        cases d <;> simp only [EchoEvents.step, Option.some.injEq] at h <;> subst h <;>
          simp [outlook, envelopes]
    | sending msg => simp [EchoEvents.step] at h
    | exited => simp [EchoEvents.step] at h
  | handoff =>
    cases dec with
    | sending msg =>
      cases disp with
      | receiving =>
        simp only [EchoEvents.step, Option.some.injEq] at h
        subst h
        simp [outlook]
      | forwarding msg2 => simp [EchoEvents.step] at h
    | reading => simp [EchoEvents.step] at h
    | exited => simp [EchoEvents.step] at h
  | dispatch =>
    cases disp with
    | receiving => simp [EchoEvents.step] at h
    | forwarding msg =>
      simp only [EchoEvents.step] at h
      cases hm : env.Marshal msg with
      | ok data =>
        rw [hm] at h
        simp only [Option.some.injEq] at h
        subst h
        simp [outlook, broadcastOf, hm]
      | error err =>
        rw [hm] at h
        simp only [Option.some.injEq] at h
        subst h
        simp [outlook, broadcastOf, hm]

/-- Every step uses up one of the steps left. -/
theorem step_stepsLeft (env : EventEnv Msg Time Bytes) {m : Move}
    {p q : Pipeline Msg Time Bytes} (h : EchoEvents.step env m p = some q) :
    stepsLeft q + 1 ≤ stepsLeft p := by
  obtain ⟨feed, clock, dec, disp, printed, bc⟩ := p
  cases m with
  | decode =>
    cases dec with
    | reading =>
      cases feed with
      | nil => simp [EchoEvents.step] at h
      | cons d rest =>
        cases d <;> simp only [EchoEvents.step, Option.some.injEq] at h <;> subst h <;>
          simp only [stepsLeft, List.length_cons] <;> omega
    | sending msg => simp [EchoEvents.step] at h
    | exited => simp [EchoEvents.step] at h
  | handoff =>
    cases dec with
    | sending msg =>
      cases disp with
      | receiving =>
        simp only [EchoEvents.step, Option.some.injEq] at h
        subst h
        simp only [stepsLeft]
        omega
      | forwarding msg2 => simp [EchoEvents.step] at h
    | reading => simp [EchoEvents.step] at h
    | exited => simp [EchoEvents.step] at h
  | dispatch =>
    cases disp with
    | receiving => simp [EchoEvents.step] at h
    | forwarding msg =>
      simp only [EchoEvents.step] at h
      cases hm : env.Marshal msg with
      | ok data =>
        rw [hm] at h
        simp only [Option.some.injEq] at h
        subst h
        simp only [stepsLeft]
        omega
      | error err =>
        rw [hm] at h
        simp only [Option.some.injEq] at h
        subst h
        simp only [stepsLeft]
        omega

theorem run_outlook (env : EventEnv Msg Time Bytes) {ms : List Move}
    {p q : Pipeline Msg Time Bytes} (h : EchoEvents.run env ms p = some q) :
    outlook env q = outlook env p := by
  induction ms generalizing p with
  | nil =>
    simp only [EchoEvents.run, Option.some.injEq] at h
    rw [h]
  | cons m ms ih =>
    simp only [EchoEvents.run] at h
    cases hs : EchoEvents.step env m p with
    | none => rw [hs] at h; exact Option.noConfusion h
    | some r =>
      rw [hs] at h
      rw [ih h, step_outlook env hs]

theorem run_stepsLeft (env : EventEnv Msg Time Bytes) {ms : List Move}
    {p q : Pipeline Msg Time Bytes} (h : EchoEvents.run env ms p = some q) :
    ms.length + stepsLeft q ≤ stepsLeft p := by
  induction ms generalizing p with
  | nil =>
    simp only [EchoEvents.run, Option.some.injEq] at h
    rw [h]; simp
  | cons m ms ih =>
    simp only [EchoEvents.run] at h
    cases hs : EchoEvents.step env m p with
    | none => rw [hs] at h; exact Option.noConfusion h
    | some r =>
      rw [hs] at h
      have h1 := ih h
      have h2 := step_stepsLeft env hs
      simp only [List.length_cons]
      omega

/-- When no step is enabled, everything has been broadcast. -/
theorem quiescent_outlook (env : EventEnv Msg Time Bytes) {p : Pipeline Msg Time Bytes}
    (h : Quiescent env p) : outlook env p = p.broadcast := by
  obtain ⟨feed, clock, dec, disp, printed, bc⟩ := p
  have h1 := h .decode
  have h2 := h .handoff
  have h3 := h .dispatch
  cases disp with
  | forwarding msg =>
    simp only [EchoEvents.step] at h3
    cases hm : env.Marshal msg <;> rw [hm] at h3 <;> exact Option.noConfusion h3
  | receiving =>
    cases dec with
    | sending msg => simp [EchoEvents.step] at h2
    | exited => simp [outlook]
    | reading =>
      cases feed with
      | nil => simp [outlook, envelopes]
      | cons d rest => cases d <;> simp [EchoEvents.step] at h1

/-- The pipeline always has a run that ends with no step enabled. -/
theorem exists_quiescent_run (env : EventEnv Msg Time Bytes) (p : Pipeline Msg Time Bytes) :
    ∃ ms q, EchoEvents.run env ms p = some q ∧ Quiescent env q := by
  generalize hn : stepsLeft p = n
  induction n using Nat.strong_induction_on generalizing p with
  | _ n ih =>
    by_cases hq : Quiescent env p
    · exact ⟨[], p, rfl, hq⟩
    · simp only [Quiescent, not_forall] at hq
      obtain ⟨m, hm⟩ := hq
      obtain ⟨r, hr⟩ := Option.ne_none_iff_exists'.1 hm
      have hlt : stepsLeft r < n := by
        have := step_stepsLeft env hr
        omega
      obtain ⟨ms, q, hrun, hquiet⟩ := ih _ hlt r rfl
      refine ⟨m :: ms, q, ?_, hquiet⟩
      simp only [EchoEvents.run, hr]
      exact hrun

theorem envelopes_ok (now : Nat → Time) (k : Nat) (events : List Msg) :
    envelopes now k (events.map Decoded.ok ++ [Decoded.eof]) = stamped now k events := by
  induction events generalizing k with
  | nil => rfl
  | cons e es ih => simp [envelopes, stamped, ih]

theorem stamped_Data (now : Nat → Time) (k : Nat) (events : List Msg) :
    (stamped now k events).map DockerEvent.Data = events := by
  induction events generalizing k with
  | nil => rfl
  | cons e es ih => simp [stamped, ih]

theorem outlook_init (env : EventEnv Msg Time Bytes) (feed : List (Decoded Msg))
    (printed : List String) :
    outlook env (Pipeline.init feed printed) = (envelopes env.now 0 feed).map (broadcastOf env) := by
  simp [outlook, Pipeline.init]

theorem outlook_prefix (env : EventEnv Msg Time Bytes) (p : Pipeline Msg Time Bytes) :
    p.broadcast <+: outlook env p := by
  simp only [outlook, List.append_assoc]
  exact List.prefix_append _ _

end Events

theorem step_tagged {Msg Time Bytes : Type} (env : EventEnv Msg Time Bytes) {m : Move}
    {p q : Pipeline Msg Time Bytes} (hp : Tagged p) (h : EchoEvents.step env m p = some q) :
    Tagged q := by
  obtain ⟨feed, clock, dec, disp, printed, bc⟩ := p
  obtain ⟨hdec, hdisp⟩ := hp
  cases m with
  | decode =>
    cases dec with
    | reading =>
      cases feed with
      | nil => simp [EchoEvents.step] at h
      | cons d rest =>
        cases d <;> simp only [EchoEvents.step, Option.some.injEq] at h <;> subst h
        · refine ⟨?_, hdisp⟩
          intro msg hmsg
          simp only [DecodeTask.sending.injEq] at hmsg
          subst hmsg
          exact ⟨rfl, rfl⟩
        · refine ⟨?_, hdisp⟩
          intro msg hmsg
          simp only [DecodeTask.sending.injEq] at hmsg
          subst hmsg
          exact ⟨rfl, rfl⟩
        · refine ⟨?_, hdisp⟩
          intro msg hmsg
          exact DecodeTask.noConfusion hmsg
    | sending msg => simp [EchoEvents.step] at h
    | exited => simp [EchoEvents.step] at h
  | handoff =>
    cases dec with
    | sending msg =>
      cases disp with
      | receiving =>
        simp only [EchoEvents.step, Option.some.injEq] at h
        subst h
        refine ⟨fun msg hmsg => DecodeTask.noConfusion hmsg, ?_⟩
        intro msg2 hmsg
        simp only [DispatchLoop.forwarding.injEq] at hmsg
        subst hmsg
        exact hdec msg rfl
      | forwarding msg2 => simp [EchoEvents.step] at h
    | reading => simp [EchoEvents.step] at h
    | exited => simp [EchoEvents.step] at h
  | dispatch =>
    cases disp with
    | receiving => simp [EchoEvents.step] at h
    | forwarding msg =>
      simp only [EchoEvents.step] at h
      cases hm : env.Marshal msg <;> rw [hm] at h <;>
        simp only [Option.some.injEq] at h <;> subst h <;>
        exact ⟨hdec, fun msg hmsg => DispatchLoop.noConfusion hmsg⟩

theorem run_tagged {Msg Time Bytes : Type} (env : EventEnv Msg Time Bytes) {ms : List Move}
    {p q : Pipeline Msg Time Bytes} (hp : Tagged p) (h : EchoEvents.run env ms p = some q) :
    Tagged q := by
  induction ms generalizing p with
  | nil =>
    simp only [EchoEvents.run, Option.some.injEq] at h
    exact h ▸ hp
  | cons m ms ih =>
    simp only [EchoEvents.run] at h
    cases hs : EchoEvents.step env m p with
    | none => rw [hs] at h; exact Option.noConfusion h
    | some r =>
      rw [hs] at h
      exact ih (step_tagged env hp hs) h

/-- C8: for every finite sequence of `N` well-formed events (every decode
succeeds, then end-of-stream; their envelopes marshal), whatever the
interleaving of the two loops, the values broadcast so far are an initial part
of the `N` serialized envelopes, the pipeline comes to rest after at most
`3 * (N + 1)` steps, and when it is at rest exactly the `N` serialized envelopes
have been broadcast, the `k`-th carrying the `k`-th decoded event. -/
theorem echoEvents_forwards_in_order {Msg Time Bytes : Type} (env : EventEnv Msg Time Bytes)
    (events : List Msg) (encode : DockerEvent Msg Time → Bytes)
    (hM : ∀ msg ∈ stamped env.now 0 events, env.Marshal msg = .ok (encode msg)) :
    ∃ p, EchoEvents.start { r := some (events.map Decoded.ok ++ [Decoded.eof]), err := none }
        = EchoState.streaming p ∧
      (∀ ms q, EchoEvents.run env ms p = some q →
        q.broadcast <+: (stamped env.now 0 events).map (fun msg => some (encode msg)) ∧
        (Quiescent env q →
          q.broadcast = (stamped env.now 0 events).map (fun msg => some (encode msg))) ∧
        ms.length ≤ 3 * (events.length + 1)) ∧
      (∃ ms q, EchoEvents.run env ms p = some q ∧ Quiescent env q) ∧
      ((stamped env.now 0 events).map (fun msg => some (encode msg))).length = events.length ∧
      (stamped env.now 0 events).map DockerEvent.Data = events := by
  refine ⟨_, rfl, ?_, exists_quiescent_run env _, ?_, stamped_Data _ _ _⟩
  · intro ms q hrun
    have hout : outlook env q
        = (stamped env.now 0 events).map (fun msg => some (encode msg)) := by
      rw [run_outlook env hrun, outlook_init, envelopes_ok]
      apply List.map_congr_left
      intro msg hmsg
      simp [broadcastOf, hM msg hmsg]
    refine ⟨hout ▸ outlook_prefix env q, ?_, ?_⟩
    · intro hq
      rw [← hout, quiescent_outlook env hq]
    · have := run_stepsLeft env hrun
      simp only [stepsLeft, Pipeline.init, List.length_append, List.length_map,
        List.length_singleton] at this
      omega
  · rw [List.length_map, ← List.length_map (stamped env.now 0 events) DockerEvent.Data,
      stamped_Data]

theorem echoEvents_forwards_in_order_witness :
    (∀ msg ∈ stamped plainEnv.now 0 ["start", "stop"], plainEnv.Marshal msg = .ok (id msg)) ∧
    ∃ p, EchoEvents.start
          { r := some (["start", "stop"].map Decoded.ok ++ [Decoded.eof]), err := none }
        = EchoState.streaming p ∧
      (∀ ms q, EchoEvents.run plainEnv ms p = some q →
        q.broadcast <+: (stamped plainEnv.now 0 ["start", "stop"]).map
          (fun msg => some (id msg)) ∧
        (Quiescent plainEnv q →
          q.broadcast = (stamped plainEnv.now 0 ["start", "stop"]).map
            (fun msg => some (id msg))) ∧
        ms.length ≤ 3 * (["start", "stop"].length + 1)) ∧
      (∃ ms q, EchoEvents.run plainEnv ms p = some q ∧ Quiescent plainEnv q) ∧
      ((stamped plainEnv.now 0 ["start", "stop"]).map (fun msg => some (id msg))).length
        = ["start", "stop"].length ∧
      (stamped plainEnv.now 0 ["start", "stop"]).map DockerEvent.Data = ["start", "stop"] :=
  ⟨fun _ _ => rfl,
    echoEvents_forwards_in_order plainEnv ["start", "stop"] id (fun _ _ => rfl)⟩

/-- C9, as stated, fails: the envelope constructed for a decoded event has its
source tag `From` equal to `"docker"`, not `"engine"`. -/
theorem echoEvents_source_tag_is_docker :
    ∃ q msg, EchoEvents.step plainEnv .decode (Pipeline.init [Decoded.ok "start"] []) = some q ∧
      q.decode = .sending msg ∧ msg.From = "docker" ∧ msg.From ≠ "engine" :=
  ⟨_, _, rfl, rfl, rfl, by decide⟩

/-- C9 (amended): every envelope that `EchoEvents` constructs, and so every
envelope that its decode goroutine sends or its dispatch loop holds at any point
of any run, has its source tag `From` equal to `"docker"` and its type tag
`Type` equal to `"event"`, whatever the content of the event. -/
theorem echoEvents_tags {Msg Time Bytes : Type} (env : EventEnv Msg Time Bytes)
    (feed : List (Decoded Msg)) (err : Option String) (p : Pipeline Msg Time Bytes)
    (hstart : EchoEvents.start { r := some feed, err := err } = EchoState.streaming p)
    (ms : List Move) (q : Pipeline Msg Time Bytes) (hrun : EchoEvents.run env ms p = some q) :
    (∀ msg, q.decode = .sending msg → msg.From = "docker" ∧ msg.Type_ = "event") ∧
    (∀ msg, q.dispatch = .forwarding msg → msg.From = "docker" ∧ msg.Type_ = "event") ∧
    ∀ msg ∈ envelopes env.now q.clock q.feed, msg.From = "docker" ∧ msg.Type_ = "event" := by
  have hp : Tagged p := by
    simp only [EchoEvents.start, EchoState.streaming.injEq] at hstart
    subst hstart
    exact ⟨fun msg h => DecodeTask.noConfusion h, fun msg h => DispatchLoop.noConfusion h⟩
  obtain ⟨h1, h2⟩ := run_tagged env hp hrun
  refine ⟨h1, h2, ?_⟩
  generalize q.clock = k
  generalize q.feed = l
  induction l generalizing k with
  | nil => simp [envelopes]
  | cons d rest ih =>
    cases d with
    | ok data =>
      simp only [envelopes, List.mem_cons]
      rintro msg (h | h)
      · subst h; exact ⟨rfl, rfl⟩
      · exact ih _ msg h
    | failed e data =>
      simp only [envelopes, List.mem_cons]
      rintro msg (h | h)
      · subst h; exact ⟨rfl, rfl⟩
      · exact ih _ msg h
    | eof => simp [envelopes]

theorem echoEvents_tags_witness :
    EchoEvents.start { r := some [Decoded.ok "start", Decoded.eof], err := none }
      = EchoState.streaming
          (Pipeline.init [Decoded.ok "start", Decoded.eof] [] :
            Pipeline String Nat (DockerEvent String Nat)) ∧
    ∃ q, EchoEvents.run plainEnv [.decode, .handoff]
        (Pipeline.init [Decoded.ok "start", Decoded.eof] []) = some q ∧
      q.dispatch
        = .forwarding { From := "docker", Type_ := "event", Data := "start", Timestamp := 0 } ∧
      ((∀ msg, q.decode = .sending msg → msg.From = "docker" ∧ msg.Type_ = "event") ∧
      (∀ msg, q.dispatch = .forwarding msg → msg.From = "docker" ∧ msg.Type_ = "event") ∧
      ∀ msg ∈ envelopes plainEnv.now q.clock q.feed,
        msg.From = "docker" ∧ msg.Type_ = "event") :=
  ⟨rfl, _, rfl, rfl,
    echoEvents_tags plainEnv [Decoded.ok "start", Decoded.eof] none
      (Pipeline.init [Decoded.ok "start", Decoded.eof] []) rfl [.decode, .handoff] _ rfl⟩

/-- C6, evaluated: on a stream of one invalid frame (a value of the wrong type,
which the decoder reports and steps over) followed by one valid frame the error
is printed, and two envelopes are broadcast, the first one for the invalid
frame with what the failed call left in `data`. -/
theorem echoEvents_envelope_for_failed_decode :
    (∃ q, EchoEvents.run plainEnv
        [.decode, .handoff, .dispatch, .decode, .handoff, .dispatch, .decode]
        (Pipeline.init
          [Decoded.failed "json: cannot unmarshal string into int64" "", Decoded.ok "start",
            Decoded.eof]
          []) = some q ∧
      Quiescent plainEnv q ∧ q.printed = ["json: cannot unmarshal string into int64"] ∧
      q.broadcast
        = [some { From := "docker", Type_ := "event", Data := "", Timestamp := 0 },
           some { From := "docker", Type_ := "event", Data := "start", Timestamp := 1 }]) ∧
    ∀ ms q, EchoEvents.run plainEnv ms
        (Pipeline.init
          [Decoded.failed "json: cannot unmarshal string into int64" "", Decoded.ok "start",
            Decoded.eof]
          []) = some q →
      Quiescent plainEnv q → q.broadcast.length = 2 := by
  constructor
  · refine ⟨_, rfl, ?_, rfl, rfl⟩
    intro m
    cases m <;> rfl
  · intro ms q hrun hq
    have h := quiescent_outlook plainEnv hq
    rw [run_outlook plainEnv hrun, outlook_init] at h
    rw [← h]
    rfl

/-- C7, evaluated: when `dc.Events` fails, `EchoEvents` prints the error and goes
on: with a nil stream the deferred `r.Close()` panics, and with a stream it
starts the decode goroutine and enters the dispatch loop. It does not return. -/
theorem echoEvents_open_failure_goes_on :
    (EchoEvents.start { r := none, err := some "connection refused" } :
        EchoState String Nat String)
      = EchoState.panicked ["connection refused"] ∧
    (EchoEvents.start { r := some [Decoded.ok "start"], err := some "connection refused" } :
        EchoState String Nat String)
      = EchoState.streaming (Pipeline.init [Decoded.ok "start"] ["connection refused"]) :=
  ⟨rfl, rfl⟩

end Avast
